import Mathlib

/-!
Verification of the quicrq transport state engine (src/lib/quicrq.c).

The development shallowly embeds the sender-side datagram acknowledgement /
horizon engine, the sender priority decision of
quicrq_prepare_to_send_on_stream, the warp/rush OBJECT_HEADER receive rule,
and the subscribe/notify dispatch, and proves or refutes the spec claims
about them.

Machine integers are modelled as Nat with explicit wrap-around at 2^64 where
the C code performs uint64 arithmetic; the C idiom of storing a uint64
difference in an int64 is modelled by toInt64.
-/

/-- 2^64, the modulus of uint64 arithmetic. -/
def M64 : Nat := 18446744073709551616

/-- UINT64_MAX, the sentinel used for an uninitialized horizon. -/
def U64MAX : Nat := 18446744073709551615

/-- uint64 subtraction a - b (wrap-around), for a b < 2^64. -/
def wrapSub (a b : Nat) : Nat := (a + M64 - b % M64) % M64

/-- uint64 addition with wrap-around. -/
def u64add (a b : Nat) : Nat := (a + b) % M64

/-- Reinterpret a uint64 value as a signed int64 (two's complement). -/
def toInt64 (x : Nat) : Int :=
  if x % M64 < 9223372036854775808 then ((x % M64 : Nat) : Int)
  else ((x % M64 : Nat) : Int) - (M64 : Int)

/-- An entry of the datagram acknowledgement tree
(struct st_quicrq_datagram_ack_state_t).  The intrusive extra-repeat list
linkage is modelled by the has_extra_data / is_extra_queued flags together
with the extra_queue FIFO kept in the stream state. -/
structure DgAckRecord where
  group_id : Nat
  object_id : Nat
  object_offset : Nat
  flags : Nat
  nb_objects_previous_group : Nat
  length : Nat
  object_length : Nat
  queue_delay : Nat
  start_time : Nat
  last_sent_time : Nat
  is_acked : Bool
  nack_received : Bool
  is_extra_queued : Bool
  has_extra_data : Bool
  extra_repeat_time : Nat
deriving Repr, DecidableEq

/-- The key of an ack record in the splay tree. -/
def recKey (r : DgAckRecord) : Nat × Nat × Nat :=
  (r.group_id, r.object_id, r.object_offset)

/-- The per-stream acknowledgement / horizon engine state
(the relevant fields of quicrq_stream_ctx_t).  The splay tree is modelled
as a list kept in tree (key) order. -/
structure AckState where
  horizon_group_id : Nat
  horizon_object_id : Nat
  horizon_offset : Nat
  horizon_is_last_fragment : Bool
  tree : List DgAckRecord
  extra_queue : List (Nat × Nat × Nat)
  nb_extra_sent : Nat
  nb_horizon_acks : Nat
  nb_horizon_events : Nat
  nb_fragment_lost : Nat
deriving Repr, DecidableEq

/-- The global configuration knobs read by the ack engine. -/
structure QrConfig where
  extra_repeat_delay : Nat
  extra_repeat_on_nack : Bool
  extra_repeat_after_received_delayed : Bool
deriving Repr, DecidableEq

/-- quicrq_datagram_ack_ctx_init: fresh engine state; the horizon starts at
the all-ones sentinel with horizon_is_last_fragment set. -/
def quicrq_datagram_ack_ctx_init : AckState :=
  { horizon_group_id := U64MAX
    horizon_object_id := U64MAX
    horizon_offset := U64MAX
    horizon_is_last_fragment := true
    tree := []
    extra_queue := []
    nb_extra_sent := 0
    nb_horizon_acks := 0
    nb_horizon_events := 0
    nb_fragment_lost := 0 }

/-- quicrq_datagram_ack_node_compare: int64 sign of the uint64 field
differences, compared lexicographically by (group, object, offset). -/
def quicrq_datagram_ack_node_compare (l r : DgAckRecord) : Int :=
  let c1 := toInt64 (wrapSub l.group_id r.group_id)
  if c1 = 0 then
    let c2 := toInt64 (wrapSub l.object_id r.object_id)
    if c2 = 0 then toInt64 (wrapSub l.object_offset r.object_offset) else c2
  else c1

/-- quicrq_datagram_check_horizon: same signed-difference comparison of a
key against the horizon triple. -/
def quicrq_datagram_check_horizon (s : AckState) (g o off : Nat) : Int :=
  let r1 := toInt64 (wrapSub g s.horizon_group_id)
  if r1 = 0 then
    let r2 := toInt64 (wrapSub o s.horizon_object_id)
    if r2 = 0 then toInt64 (wrapSub off s.horizon_offset) else r2
  else r1

/-- Exact-key lookup in the ack tree (quicrq_datagram_ack_find). -/
def treeFind (t : List DgAckRecord) (g o off : Nat) : Option DgAckRecord :=
  t.find? (fun x => x.group_id = g ∧ x.object_id = o ∧ x.object_offset = off)

/-- Index of the record with the given key, used to model walking the tree
from a found node with picosplay_next. -/
def findKeyIdx : List DgAckRecord → Nat → Nat → Nat → Option Nat
  | [], _, _, _ => none
  | x :: xs, g, o, off =>
    if x.group_id = g ∧ x.object_id = o ∧ x.object_offset = off then some 0
    else (findKeyIdx xs g o off).map (· + 1)

/-- Ordered insertion by quicrq_datagram_ack_node_compare (picosplay_insert
keeps the tree ordered by the comparison function). -/
def treeInsert : List DgAckRecord → DgAckRecord → List DgAckRecord
  | [], r => [r]
  | x :: xs, r =>
    if quicrq_datagram_ack_node_compare r x < 0 then r :: x :: xs
    else x :: treeInsert xs r

/-- Update (in place) every record with the given key. -/
def treeUpdate (t : List DgAckRecord) (g o off : Nat)
    (f : DgAckRecord → DgAckRecord) : List DgAckRecord :=
  t.map (fun x =>
    if x.group_id = g ∧ x.object_id = o ∧ x.object_offset = off then f x else x)

/-- In-place field update of the record at a key in the stream state. -/
def updateRec (s : AckState) (g o off : Nat) (f : DgAckRecord → DgAckRecord) :
    AckState :=
  { s with tree := treeUpdate s.tree g o off f }

/-- quicrq_datagram_ack_extra_queue: no-op when the record is already
queued, otherwise marks it, appends the key at the tail of the extra-repeat
FIFO, records the repeat time and bumps nb_extra_sent. -/
def quicrq_datagram_ack_extra_queue (s : AckState) (g o off : Nat)
    (repeat_time : Nat) : AckState :=
  match treeFind s.tree g o off with
  | none => s
  | some r =>
    if r.is_extra_queued then s
    else
      { s with
        tree := treeUpdate s.tree g o off (fun x =>
          { x with is_extra_queued := true, has_extra_data := true
                   extra_repeat_time := repeat_time })
        extra_queue := s.extra_queue ++ [(g, o, off)]
        nb_extra_sent := s.nb_extra_sent + 1 }

/-- The zero-initialized record created by quicrq_datagram_ack_init
(src/lib/quicrq.c:661-676). -/
def newAckRecord (g o off flags nbopg len qd objlen now : Nat) :
    DgAckRecord :=
  { group_id := g, object_id := o, object_offset := off
    flags := flags, nb_objects_previous_group := nbopg
    length := len, object_length := objlen, queue_delay := qd
    start_time := now, last_sent_time := 0
    is_acked := false, nack_received := false
    is_extra_queued := false, has_extra_data := false
    extra_repeat_time := 0 }

/-- Result classification of quicrq_datagram_ack_init.  In C a below-horizon
init returns 0 after bumping nb_horizon_events and a duplicate returns 1;
the spec names the three observable outcomes. -/
inductive AckInitResult
  | Created
  | BelowHorizon
  | Duplicate
deriving Repr, DecidableEq

/-- quicrq_datagram_ack_init (src/lib/quicrq.c:639).  Drops keys below the
horizon (per the signed-difference comparison), rejects duplicates,
otherwise inserts a fresh record and optionally schedules an extra repeat
when extra_repeat_after_received_delayed is on, extra_repeat_delay > 0 and
queue_delay > 20. -/
def quicrq_datagram_ack_init (cfg : QrConfig) (s : AckState)
    (g o off flags nbopg len qd objlen now : Nat) :
    AckInitResult × AckState :=
  if quicrq_datagram_check_horizon s g o off < 0 then
    (.BelowHorizon, { s with nb_horizon_events := s.nb_horizon_events + 1 })
  else
    match treeFind s.tree g o off with
    | some _ => (.Duplicate, s)
    | none =>
      let rNew := newAckRecord g o off flags nbopg len qd objlen now
      let s1 := { s with tree := treeInsert s.tree rNew }
      let s2 :=
        if cfg.extra_repeat_after_received_delayed = true ∧
            0 < cfg.extra_repeat_delay ∧ 20 < qd then
          quicrq_datagram_ack_extra_queue s1 g o off
            (u64add now cfg.extra_repeat_delay)
        else s1
      (.Created, s2)

/-- Errors of the embedded engine.  nullDeref marks the places where the C
code dereferences a pointer that can be NULL. -/
inductive EngErr
  | nullDeref
  | bufferOverflow
  | ackInitFail
  | outOfFuel
deriving Repr, DecidableEq

instance {ε α : Type} [DecidableEq ε] [DecidableEq α] :
    DecidableEq (Except ε α) := fun x y =>
  match x, y with
  | .ok a, .ok b =>
    if h : a = b then .isTrue (by rw [h])
    else .isFalse (fun c => h (Except.ok.inj c))
  | .error a, .error b =>
    if h : a = b then .isTrue (by rw [h])
    else .isFalse (fun c => h (Except.error.inj c))
  | .ok a, .error b => .isFalse (fun c => Except.noConfusion c)
  | .error a, .ok b => .isFalse (fun c => Except.noConfusion c)

/-- Set is_acked on the record at position i. -/
def markAckedAt : List DgAckRecord → Nat → List DgAckRecord
  | [], _ => []
  | x :: xs, 0 => { x with is_acked := true } :: xs
  | x :: xs, n + 1 => x :: markAckedAt xs n

/-- The marking walk of quicrq_datagram_handle_ack (src/lib/quicrq.c:738).
Starting from the found record it marks successive records acked while the
remaining acked length is positive.  When the acked range runs past the last
record of the tree, the C code reads found->group_id from the NULL returned
by quicrq_datagram_ack_node_value: modelled as the nullDeref error. -/
def markLoop (g o : Nat) :
    Nat → List DgAckRecord → Nat → Int → Nat →
    Except EngErr (List DgAckRecord)
  | 0, t, _, _, _ => .ok t
  | fuel + 1, t, i, alen, aoff =>
    if alen ≤ 0 then .ok t
    else
      match t.get? i with
      | none => .ok t
      | some r =>
        let t2 := markAckedAt t i
        let alen2 := alen - (r.length : Int)
        let aoff2 := u64add aoff r.length
        if 0 < alen2 then
          match t2.get? (i + 1) with
          | none => .error .nullDeref
          | some rn =>
            if rn.group_id ≠ g ∨ rn.object_id ≠ o ∨ rn.object_offset ≠ aoff2
            then .ok t2
            else markLoop g o fuel t2 (i + 1) alen2 aoff2
        else .ok t2

/-- The just_after test of the horizon advance loop
(src/lib/quicrq.c:784-797).  Note: in the different-group branch the code
does not test das->object_id == 0, although its own comment and the spec
require the next object id to be zero. -/
def justAfter (hg ho hoff : Nat) (hl : Bool) (das : DgAckRecord) : Bool :=
  if das.group_id == hg then
    if das.object_id == ho then das.object_offset == hoff
    else if hl then
      (wrapSub das.object_id ho == 1) && (das.object_offset == 0)
    else false
  else
    hl && (das.group_id == u64add hg 1) && (das.object_offset == 0) &&
      (das.nb_objects_previous_group == u64add ho 1)

/-- One horizon advance: move the horizon past das, drop it from the tree
and, when it had extra data, dequeue it from the extra-repeat list. -/
def advanceStep (s : AckState) (das : DgAckRecord)
    (rest : List DgAckRecord) : AckState :=
  { s with
    tree := rest
    horizon_group_id := das.group_id
    horizon_object_id := das.object_id
    horizon_offset := u64add das.object_offset das.length
    horizon_is_last_fragment :=
      decide (das.object_length ≤ u64add das.object_offset das.length)
    extra_queue :=
      if das.has_extra_data then
        s.extra_queue.filter (fun k =>
          k ≠ (das.group_id, das.object_id, das.object_offset))
      else s.extra_queue }

/-- The horizon advance loop (src/lib/quicrq.c:775-813): walk the tree from
its first record, stop at the first record that is unacked or not just
after the horizon, and otherwise move the horizon past the record and drop
it (which also dequeues it from the extra-repeat list). -/
def advanceGo : Nat → AckState → AckState
  | 0, s => s
  | fuel + 1, s =>
    match s.tree with
    | [] => s
    | das :: rest =>
      if das.is_acked = false then s
      else if justAfter s.horizon_group_id s.horizon_object_id
          s.horizon_offset s.horizon_is_last_fragment das then
        advanceGo fuel (advanceStep s das rest)
      else s

/-- Outcome of the first phase of quicrq_datagram_handle_ack
(src/lib/quicrq.c:698-730): whether the ack is below the horizon, whether
the horizon walk should run, the clipped acked offset and length, and the
state with the below-horizon counter updated. -/
def ackPhase1 (s : AckState) (g o off len : Nat) :
    Bool × Bool × Nat × Int × AckState :=
  let hdg := toInt64 (wrapSub g s.horizon_group_id)
  let hd := toInt64 (wrapSub o s.horizon_object_id)
  if hdg = 0 ∧ hd = 0 then
    if u64add off len < s.horizon_offset then
      (true, false, off, (len : Int),
        { s with nb_horizon_acks := s.nb_horizon_acks + 1 })
    else if off < s.horizon_offset then
      (false, true, s.horizon_offset,
        (len : Int) - ((s.horizon_offset - off : Nat) : Int), s)
    else if off = s.horizon_offset then
      (false, true, off, (len : Int), s)
    else (false, false, off, (len : Int), s)
  else if hdg < 0 ∨ (hdg = 0 ∧ hd < 0) then
    (true, false, off, (len : Int),
      { s with nb_horizon_acks := s.nb_horizon_acks + 1 })
  else if hdg = 0 ∧ hd = 1 ∧ s.horizon_is_last_fragment = true ∧ off = 0 then
    (false, true, off, (len : Int), s)
  else if s.horizon_group_id = U64MAX then
    (false, true, off, (len : Int), s)
  else (false, false, off, (len : Int), s)

/-- quicrq_datagram_handle_ack (src/lib/quicrq.c:694): classify the ack
against the horizon, mark the matching record(s) acked, then advance the
horizon when the ack touched it. -/
def quicrq_datagram_handle_ack (s : AckState) (g o off len : Nat) :
    Except EngErr AckState :=
  let p := ackPhase1 s g o off len
  let below := p.1
  let should := p.2.1
  let aoff := p.2.2.1
  let alen := p.2.2.2.1
  let s1 := p.2.2.2.2
  let afterMark : Except EngErr AckState :=
    if below then .ok s1
    else
      match findKeyIdx s1.tree g o aoff with
      | none => .ok s1
      | some i =>
        (markLoop g o (s1.tree.length + 1) s1.tree i alen aoff).map
          (fun t => { s1 with tree := t })
  afterMark.map (fun s2 =>
    if should then advanceGo (s2.tree.length + 1) s2 else s2)

/-- Datagram header fields written by quicrq_datagram_header_encode.  The
encoder itself lives outside the core file; its encoded size enters the
model as the hdrLen parameter. -/
structure DgHeader where
  media_id : Nat
  group_id : Nat
  object_id : Nat
  object_offset : Nat
  queue_delay : Nat
  flags : Nat
  nb_objects_previous_group : Nat
  object_length : Nat
deriving Repr, DecidableEq

/-- A datagram handed to picoquic_queue_datagram_frame: header plus the
payload bytes copied behind it. -/
structure QueuedDatagram where
  header : DgHeader
  payload : List Nat
deriving Repr, DecidableEq

/-- The queue_delay delta of a repeated datagram
(src/lib/quicrq.c:843-845): rounded milliseconds elapsed since the record
was first sent. -/
def repeatDelayDelta (now start_time : Nat) : Nat :=
  if start_time < now then (u64add (now - start_time) 500) / 1000 else 0

/-- found->last_sent_time = current_time (src/lib/quicrq.c:847 and 866). -/
def setLastSent (now : Nat) (x : DgAckRecord) : DgAckRecord :=
  { x with last_sent_time := now }

/-- The datagram header re-encoded by the repeat loop
(src/lib/quicrq.c:848-850). -/
def repeatHdr (media_id g o off : Nat) (found : DgAckRecord) (now : Nat) :
    DgHeader :=
  { media_id := media_id, group_id := g, object_id := o
    object_offset := off
    queue_delay := u64add found.queue_delay
      (repeatDelayDelta now found.start_time)
    flags := found.flags
    nb_objects_previous_group := found.nb_objects_previous_group
    object_length := found.object_length }

/-- The fragment that fits in one queued datagram
(src/lib/quicrq.c:851-857). -/
def repeatFrag (qmax header_length data_length : Nat) : Nat :=
  if qmax < header_length + data_length then wrapSub qmax header_length
  else data_length

/-- Field copies onto a freshly split tail record
(src/lib/quicrq.c:883-884). -/
def tailInherit (found : DgAckRecord) (x : DgAckRecord) : DgAckRecord :=
  { x with object_length := found.object_length
           nack_received := found.nack_received }

/-- found->length = fragment_length (src/lib/quicrq.c:885). -/
def setRecLen (l : Nat) (x : DgAckRecord) : DgAckRecord :=
  { x with length := l }

/-- The post-queue state of one turn of the repeat loop: the record's last
sent time is refreshed (twice, as in the C code) and, when an extra repeat
was requested and extra_repeat_delay is configured, the record is queued
for the extra repeat. -/
def repeatTouch (cfg : QrConfig) (s : AckState) (g o off : Nat)
    (prepare_extra : Bool) (now : Nat) : AckState :=
  let sB := updateRec (updateRec s g o off (setLastSent now)) g o off
    (setLastSent now)
  if prepare_extra = true ∧ 0 < cfg.extra_repeat_delay then
    quicrq_datagram_ack_extra_queue sB g o off
      (u64add now cfg.extra_repeat_delay)
  else sB

/-- The loop body of quicrq_datagram_handle_repeat (src/lib/quicrq.c:835).
qmax is PICOQUIC_DATAGRAM_QUEUE_MAX_LENGTH and pmax is
PICOQUIC_MAX_PACKET_SIZE (transport constants); hdrLen gives the encoded
size of a datagram header.  Each turn re-encodes the header, queues the
fragment that fits, and when data remains creates a tail record via
quicrq_datagram_ack_init, copies object_length and nack_received onto it
and shrinks the original record before continuing with the tail.  The two
C NULL-dereference hazards (ack_init filtering the tail below the horizon,
leaving p_next_record NULL) and the error return of a duplicate tail are
modelled explicitly. -/
def repeatGo (qmax pmax : Nat) (hdrLen : DgHeader → Nat) (cfg : QrConfig)
    (media_id : Nat) :
    Nat → AckState → Nat → Nat → Nat → List Nat → Bool → Nat →
    List QueuedDatagram →
    Except EngErr (List QueuedDatagram × AckState)
  | 0, _, _, _, _, _, _, _, _ => .error .outOfFuel
  | fuel + 1, s, g, o, off, data, prepare_extra, now, acc =>
    match treeFind s.tree g o off with
    | none => .error .ackInitFail
    | some found =>
      if data.length = 0 ∧ found.flags ≠ 255 then .ok (acc.reverse, s)
      else
        let hdr := repeatHdr media_id g o off found now
        let fragment_length := repeatFrag qmax (hdrLen hdr) data.length
        if pmax < hdrLen hdr + fragment_length then .error .bufferOverflow
        else
          let acc2 := { header := hdr, payload := data.take fragment_length }
            :: acc
          let sC := repeatTouch cfg s g o off prepare_extra now
          if fragment_length < data.length then
            match quicrq_datagram_ack_init cfg sC g o
                (u64add off fragment_length) found.flags
                found.nb_objects_previous_group
                (data.drop fragment_length).length found.queue_delay
                found.object_length found.start_time with
            | (.Created, s2) =>
              repeatGo qmax pmax hdrLen cfg media_id fuel
                (updateRec (updateRec s2 g o (u64add off fragment_length)
                    (tailInherit found)) g o off (setRecLen fragment_length))
                g o (u64add off fragment_length) (data.drop fragment_length)
                prepare_extra now acc2
            | (.Duplicate, _) => .error .ackInitFail
            | (.BelowHorizon, _) => .error .nullDeref
          else .ok (acc2.reverse, sC)

/-- quicrq_datagram_handle_repeat (src/lib/quicrq.c:823), entered on the
record with key (g, o, off) carrying the datagram payload `data`. -/
def quicrq_datagram_handle_repeat (qmax pmax : Nat) (hdrLen : DgHeader → Nat)
    (cfg : QrConfig) (media_id : Nat) (s : AckState) (g o off : Nat)
    (data : List Nat) (prepare_extra : Bool) (now : Nat) :
    Except EngErr (List QueuedDatagram × AckState) :=
  repeatGo qmax pmax hdrLen cfg media_id (data.length + 1) s g o off data
    prepare_extra now []

/-- quicrq_datagram_handle_lost (src/lib/quicrq.c:903): when the record
exists, is not acked, and either has no extra repeat queued or was last
sent no later than sent_time + 1000, mark nack_received, count the loss and
queue an immediate retransmission via handle_repeat (with an extra repeat
when extra_repeat_on_nack is configured); otherwise the NACK is ignored. -/
def quicrq_datagram_handle_lost (qmax pmax : Nat) (hdrLen : DgHeader → Nat)
    (cfg : QrConfig) (media_id : Nat) (s : AckState)
    (g o off sent_time : Nat) (data : List Nat) (now : Nat) :
    Except EngErr (List QueuedDatagram × AckState) :=
  match treeFind s.tree g o off with
  | none => .ok ([], s)
  | some found =>
    if found.is_acked then .ok ([], s)
    else if found.is_extra_queued = false ∨
        found.last_sent_time ≤ u64add sent_time 1000 then
      let s1 := updateRec s g o off (fun x => { x with nack_received := true })
      let s2 := { s1 with nb_fragment_lost := s1.nb_fragment_lost + 1 }
      quicrq_datagram_handle_repeat qmax pmax hdrLen cfg media_id s2 g o off
        data cfg.extra_repeat_on_nack now
    else .ok ([], s)

/-- The spec's horizon-advance condition, stated from the spec text: a
record r advances the horizon (hg, ho, hoff, with last-fragment flag hl)
iff it continues the same object, starts the next object at offset 0 after
a last fragment, starts object 0 of the next group at offset 0 after a last
fragment with the matching previous-group count, or the horizon is still
uninitialized. -/
def specHorizonAdvanceCond (hg ho hoff : Nat) (hl : Bool) (r : DgAckRecord) :
    Prop :=
  (r.group_id = hg ∧ r.object_id = ho ∧ r.object_offset = hoff) ∨
  (r.group_id = hg ∧ r.object_id = u64add ho 1 ∧ r.object_offset = 0 ∧
    hl = true) ∨
  (r.group_id = u64add hg 1 ∧ r.object_id = 0 ∧ r.object_offset = 0 ∧
    hl = true ∧ r.nb_objects_previous_group = u64add ho 1) ∨
  (hg = U64MAX ∧ ho = U64MAX ∧ hoff = U64MAX)

instance (hg ho hoff : Nat) (hl : Bool) (r : DgAckRecord) :
    Decidable (specHorizonAdvanceCond hg ho hoff hl r) := by
  unfold specHorizonAdvanceCond; infer_instance

/-- Send states of a bidirectional control stream (the members of the send
state enumeration used by quicrq_prepare_to_send_on_stream). -/
inductive QuicrqSendState
  | sending_ready
  | sending_start_point
  | sending_final_point
  | sending_cache_policy
  | sending_single_stream
  | notify_ready
  | sending_notify
deriving Repr, DecidableEq

/-- Transport modes of a media stream. -/
inductive QuicrqTransportMode
  | single_stream
  | datagram
  | warp
  | rush
deriving Repr, DecidableEq

/-- The fields of quicrq_stream_ctx_t read by the ready-state branch of
quicrq_prepare_to_send_on_stream. -/
structure StreamSendView where
  is_sender : Bool
  send_state : QuicrqSendState
  start_group_id : Nat
  start_object_id : Nat
  is_start_object_id_sent : Bool
  final_group_id : Nat
  final_object_id : Nat
  is_final_object_id_sent : Bool
  is_cache_real_time : Bool
  is_cache_policy_sent : Bool
  transport_mode : QuicrqTransportMode
deriving Repr, DecidableEq

/-- What the ready-state branch prepared (or did). -/
inductive PrepareAction
  | queuedStartPoint
  | queuedFinDatagram
  | queuedCachePolicy
  | enterSingleStream
  | markedInactive
  | noAction
deriving Repr, DecidableEq

/-- The decision made by quicrq_prepare_to_send_on_stream
(src/lib/quicrq.c:1149-1219) for a stream in send state ready, together
with the mark-inactive fallthrough of the trailing switch (line 1254-1257):
first match wins among start point, final point, cache policy, and
single-stream fragment data; otherwise the stream is marked inactive.
fragment_ready is the value of quicrq_fragment_is_ready_to_send, a
predicate of the fragment cache outside this file. -/
def quicrq_prepare_to_send_ready_step (s : StreamSendView)
    (fragment_ready : Bool) : PrepareAction × QuicrqSendState :=
  if s.send_state = .sending_ready then
    if s.is_sender then
      if (0 < s.start_group_id ∨ 0 < s.start_object_id) ∧
          s.is_start_object_id_sent = false then
        (.queuedStartPoint, .sending_start_point)
      else if (0 < s.final_group_id ∨ 0 < s.final_object_id) ∧
          s.is_final_object_id_sent = false then
        (.queuedFinDatagram, .sending_final_point)
      else if s.is_cache_real_time = true ∧ s.is_cache_policy_sent = false then
        (.queuedCachePolicy, .sending_cache_policy)
      else if s.transport_mode = .single_stream ∧ fragment_ready = true then
        (.enterSingleStream, .sending_single_stream)
      else (.markedInactive, .sending_ready)
    else (.noAction, s.send_state)
  else (.noAction, s.send_state)

/-- Receive states of a unidirectional (warp/rush) substream. -/
inductive UniReceiveState
  | receive_open
  | receive_warp_header
  | receive_object_header
  | receive_object_data
deriving Repr, DecidableEq

/-- The fields of quicrq_uni_stream_ctx_t read when an OBJECT_HEADER
message arrives, plus the transport mode of the bound control stream. -/
structure UniRecvView where
  receive_state : UniReceiveState
  current_group_id : Nat
  current_object_id : Nat
  current_object_length : Nat
  current_object_offset : Nat
  current_object_flags : Nat
  nb_objects_previous_group : Nat
  has_control_stream : Bool
  transport_mode : QuicrqTransportMode
deriving Repr, DecidableEq

/-- An incoming OBJECT_HEADER message. -/
structure ObjectHeaderMsg where
  object_id : Nat
  nb_objects_previous_group : Nat
  flags : Nat
  object_length : Nat
deriving Repr, DecidableEq

/-- A zero-length object handed directly to the consumer. -/
structure ZeroLenDelivery where
  group_id : Nat
  object_id : Nat
  flags : Nat
  nb_objects_previous_group : Nat
deriving Repr, DecidableEq

/-- Processing of an OBJECT_HEADER on a receiving warp/rush substream
(src/lib/quicrq.c:2003-2044).  The ordering test of line 2013-2017 rejects
the header when, in rush mode, the substream's running object counter is
nonzero, or, in warp mode, the counter differs from the header's object_id.
A zero-length object is delivered immediately and bumps the counter; a
positive length sets up object_data reception. -/
def quicrq_receive_object_header_msg (u : UniRecvView) (m : ObjectHeaderMsg) :
    Except Unit (UniRecvView × Option ZeroLenDelivery) :=
  if u.receive_state ≠ .receive_warp_header ∧
      u.receive_state ≠ .receive_object_header then .error ()
  else if u.has_control_stream = false then .error ()
  else if (u.transport_mode = .rush ∧ u.current_object_id ≠ 0) ∨
      (u.transport_mode = .warp ∧ u.current_object_id ≠ m.object_id) then
    .error ()
  else if 0 < m.object_length then
    .ok ({ u with
            receive_state := .receive_object_data
            current_object_id := m.object_id
            current_object_length := m.object_length
            current_object_flags := m.flags
            nb_objects_previous_group := m.nb_objects_previous_group
            current_object_offset := 0 }, none)
  else
    .ok ({ u with
            receive_state := .receive_object_header
            current_object_id := u.current_object_id + 1 },
      some { group_id := u.current_group_id, object_id := m.object_id
             flags := m.flags
             nb_objects_previous_group := m.nb_objects_previous_group })

/-- The subscription-related fields of a stream context. -/
structure NotifyStreamView where
  send_state : QuicrqSendState
  subscribePfx : List Nat
  pending_notify : List (List Nat)
deriving Repr, DecidableEq

/-- quicrq_notify_url_to_stream (src/lib/quicrq.c:1528): when the stream's
subscribe prefix is a prefix of the url, push the url on the stream's
pending notify list (newest first) and report 1; else report 0. -/
def quicrq_notify_url_to_stream (st : NotifyStreamView) (url : List Nat) :
    Nat × NotifyStreamView :=
  if st.subscribePfx.length ≤ url.length ∧
      url.take st.subscribePfx.length = st.subscribePfx then
    (1, { st with pending_notify := url :: st.pending_notify })
  else (0, st)

/-- The per-connection stream walk of quicrq_notify_url_to_all
(src/lib/quicrq.c:1559-1570): visit streams in order; on the first stream
in notify_ready whose prefix matches (report 1), stop walking this
connection's streams. -/
def notifyStreams : List NotifyStreamView → List Nat → List NotifyStreamView
  | [], _ => []
  | st :: rest, url =>
    if st.send_state = .notify_ready then
      let p := quicrq_notify_url_to_stream st url
      if 0 < p.1 then p.2 :: rest
      else p.2 :: notifyStreams rest url
    else st :: notifyStreams rest url

/-- quicrq_notify_url_to_all (src/lib/quicrq.c:1554): apply the
per-connection walk to every connection. -/
def quicrq_notify_url_to_all (cnxs : List (List NotifyStreamView))
    (url : List Nat) : List (List NotifyStreamView) :=
  cnxs.map (fun streams => notifyStreams streams url)

/-- The source-matching part of quicrq_process_incoming_subscribe
(src/lib/quicrq.c:1592-1605): a freshly subscribed stream (prefix stored,
send state notify_ready) is offered every registered source url in list
order. -/
def quicrq_process_incoming_subscribe (sources : List (List Nat))
    (urlPfx : List Nat) : NotifyStreamView :=
  sources.foldl (fun st u => (quicrq_notify_url_to_stream st u).2)
    { send_state := .notify_ready, subscribePfx := urlPfx, pending_notify := [] }

/-! Orders on ack-tree keys, and observation helpers used to state the
claims. -/

/-- Strict lexicographic order on (group, object, offset) keys. -/
def keyLexLt (a b : Nat × Nat × Nat) : Prop :=
  a.1 < b.1 ∨ (a.1 = b.1 ∧ (a.2.1 < b.2.1 ∨ (a.2.1 = b.2.1 ∧ a.2.2 < b.2.2)))

/-- Reflexive lexicographic order on keys. -/
def keyLexLe (a b : Nat × Nat × Nat) : Prop := keyLexLt a b ∨ a = b

instance (a b : Nat × Nat × Nat) : Decidable (keyLexLt a b) := by
  unfold keyLexLt; infer_instance

instance (a b : Nat × Nat × Nat) : Decidable (keyLexLe a b) := by
  unfold keyLexLe; infer_instance

/-- The horizon triple of an engine state. -/
def horizonKey (s : AckState) : Nat × Nat × Nat :=
  (s.horizon_group_id, s.horizon_object_id, s.horizon_offset)

/-- Observation of a handle_ack result: the horizon triple, or none when
the C code crashed. -/
def horizonOf (e : Except EngErr AckState) : Option (Nat × Nat × Nat) :=
  match e with
  | .ok s => some (horizonKey s)
  | .error _ => none

/-- Observation of a handle_ack result: the keys left in the tree, or none
when the C code crashed. -/
def treeKeysOf (e : Except EngErr AckState) : Option (List (Nat × Nat × Nat)) :=
  match e with
  | .ok s => some (s.tree.map recKey)
  | .error _ => none

/-- Observation of a repeat/lost result: the queue_delay carried by each
queued datagram header. -/
def queuedDelays (e : Except EngErr (List QueuedDatagram × AckState)) :
    Option (List Nat) :=
  match e with
  | .ok p => some (p.1.map (fun q => q.header.queue_delay))
  | .error _ => none

/-- A bare ack record used to build concrete engine states. -/
def mkRec (g o off len objlen nbopg : Nat) (acked : Bool) : DgAckRecord :=
  { group_id := g, object_id := o, object_offset := off, flags := 0
    nb_objects_previous_group := nbopg, length := len, object_length := objlen
    queue_delay := 0, start_time := 0, last_sent_time := 0
    is_acked := acked, nack_received := false, is_extra_queued := false
    has_extra_data := false, extra_repeat_time := 0 }

/-- Configuration with every extra-repeat feature off. -/
def cfgOff : QrConfig := ⟨0, false, false⟩

/-! Bridges between the C comparisons and the lexicographic key order. -/

/-- Record fields are small: both ends of the fragment, the ids, and the
counters fit well under the wrap-around boundary. -/
def smallRec (r : DgAckRecord) : Prop :=
  r.group_id < 2 ^ 61 ∧ r.object_id < 2 ^ 61 ∧
  r.object_offset + r.length < 2 ^ 61 ∧ r.object_length < 2 ^ 61 ∧
  r.nb_objects_previous_group < 2 ^ 61

instance (r : DgAckRecord) : Decidable (smallRec r) := by
  unfold smallRec; infer_instance

/-! Well-formedness of the engine state, and the horizon invariant. -/

/-- The relation kept along the ack tree: keys strictly increase and
fragments of the same object do not overlap. -/
def overlapOrd (a b : DgAckRecord) : Prop :=
  keyLexLt (recKey a) (recKey b) ∧
  (a.group_id = b.group_id ∧ a.object_id = b.object_id →
    a.object_offset + a.length ≤ b.object_offset)

instance (a b : DgAckRecord) : Decidable (overlapOrd a b) := by
  unfold overlapOrd; infer_instance

/-- The tree is sorted with non-overlapping same-object fragments. -/
def sortedNonoverlap (t : List DgAckRecord) : Prop := t.Pairwise overlapOrd

instance (t : List DgAckRecord) : Decidable (sortedNonoverlap t) := by
  unfold sortedNonoverlap; infer_instance

/-- The horizon is either the uninitialized sentinel or a small triple. -/
def horizonOk (s : AckState) : Prop :=
  horizonKey s = (U64MAX, U64MAX, U64MAX) ∨
  (s.horizon_group_id < 2 ^ 62 ∧ s.horizon_object_id < 2 ^ 62 ∧
    s.horizon_offset < 2 ^ 62)

instance (s : AckState) : Decidable (horizonOk s) := by
  unfold horizonOk; infer_instance

/-- Well-formed engine state. -/
def ackWf (s : AckState) : Prop :=
  sortedNonoverlap s.tree ∧ (∀ r ∈ s.tree, smallRec r) ∧ horizonOk s

instance (s : AckState) : Decidable (ackWf s) := by
  unfold ackWf; infer_instance

/-- The spec's invariant, amended: once the horizon has left its
uninitialized sentinel, every record in the tree is at or above it. -/
def ackHorizonInv (s : AckState) : Prop :=
  horizonKey s ≠ (U64MAX, U64MAX, U64MAX) →
    ∀ r ∈ s.tree, keyLexLe (horizonKey s) (recKey r)

instance (s : AckState) : Decidable (ackHorizonInv s) := by
  unfold ackHorizonInv; infer_instance

/-! Skeleton transfer: marking flags and transmission times do not affect
the tree's keys, lengths, or well-formedness. -/

/-- The part of a record that well-formedness depends on. -/
def skel (r : DgAckRecord) : DgAckRecord :=
  { r with is_acked := false, nack_received := false, last_sent_time := 0
           is_extra_queued := false, has_extra_data := false
           extra_repeat_time := 0 }

/-! Facts routed through the retransmission loop: the horizon never moves,
lookups behave predictably, and every touched key stays at or above the
record under repeat. -/

/-- The horizon fields bundled for constancy lemmas. -/
def horizonQuad (s : AckState) : Nat × Nat × Nat × Bool :=
  (s.horizon_group_id, s.horizon_object_id, s.horizon_offset,
    s.horizon_is_last_fragment)

/-- Offsets of the queued datagrams chain from the starting offset by the
payload lengths. -/
def offsetsChained : Nat → List QueuedDatagram → Prop
  | _, [] => True
  | off, q :: rest =>
    q.header.object_offset = off ∧
    offsetsChained (off + q.payload.length) rest

def offsetsChainedDec : (off : Nat) → (l : List QueuedDatagram) →
    Decidable (offsetsChained off l)
  | _, [] => .isTrue trivial
  | off, q :: rest =>
    match offsetsChainedDec (off + q.payload.length) rest with
    | .isTrue h =>
      if hq : q.header.object_offset = off then .isTrue ⟨hq, h⟩
      else .isFalse (fun hc => hq hc.1)
    | .isFalse h => .isFalse (fun hc => h hc.2)

instance (off : Nat) (l : List QueuedDatagram) :
    Decidable (offsetsChained off l) := offsetsChainedDec off l

/-- Horizon (5, 7, 10) after a last fragment; an unacked fragment sitting
exactly at the horizon, and an acked first-fragment of the next group whose
object_id is 3 (not 0) but whose previous-group count matches. -/
def cexStateC1 : AckState :=
  { quicrq_datagram_ack_ctx_init with
      horizon_group_id := 5, horizon_object_id := 7, horizon_offset := 10
      horizon_is_last_fragment := true
      tree := [mkRec 5 7 10 90 100 0 false, mkRec 6 3 0 100 100 8 true] }

/-- The engine state right after the very first ack_init on a fresh
context. -/
def stateAfterFirstInit : AckState :=
  (quicrq_datagram_ack_init cfgOff quicrq_datagram_ack_ctx_init
    0 0 0 0 0 10 0 100 1000).2

/-- A record whose extra repeat is queued and whose last transmission is
newer than the NACKed one. -/
def cexRecC4 : DgAckRecord :=
  { mkRec 1 2 3 10 20 0 false with is_extra_queued := true
                                   last_sent_time := 5000 }

/-- Fresh context holding only cexRecC4. -/
def cexStateC4 : AckState :=
  { quicrq_datagram_ack_ctx_init with tree := [cexRecC4] }

/-- A record first sent at time 0 with stored queue_delay 5. -/
def cexRecC6 : DgAckRecord := { mkRec 2 3 0 10 10 0 false with queue_delay := 5 }

/-- Fresh context holding only cexRecC6. -/
def cexStateC6 : AckState :=
  { quicrq_datagram_ack_ctx_init with tree := [cexRecC6] }

/-- A rush-mode substream that has received its WARP_HEADER and no object
yet. -/
def cexUniC8 : UniRecvView :=
  { receive_state := .receive_warp_header, current_group_id := 0
    current_object_id := 0, current_object_length := 0
    current_object_offset := 0, current_object_flags := 0
    nb_objects_previous_group := 0, has_control_stream := true
    transport_mode := .rush }

/-- An OBJECT_HEADER whose object_id is 7, not 0. -/
def cexMsgC8 : ObjectHeaderMsg :=
  { object_id := 7, nb_objects_previous_group := 0, flags := 0
    object_length := 100 }

/-- A notify_ready stream subscribed to the one-byte prefix [1]. -/
def nsvOne : NotifyStreamView :=
  { send_state := .notify_ready, subscribePfx := [1], pending_notify := [] }

/-- Fresh context holding a single ten-byte unacked record at (0,0,0). -/
def cexStateC10 : AckState :=
  { quicrq_datagram_ack_ctx_init with tree := [mkRec 0 0 0 10 100 0 false] }

/-- The four mutating operations of the datagram ack engine named by the
invariant claim. -/
inductive AckOp
  | opInit (g o off flags nbopg len qd objlen now : Nat)
  | opAck (g o off len : Nat)
  | opRepeat (g o off : Nat) (data : List Nat) (pe : Bool) (now : Nat)
  | opLost (g o off sent_time : Nat) (data : List Nat) (now : Nat)

/-- Applying one engine operation to a state.  ack_init always returns its
updated state; the other operations are fallible. -/
def applyAckOp (qmax pmax : Nat) (hdrLen : DgHeader → Nat) (cfg : QrConfig)
    (mid : Nat) (s : AckState) : AckOp → Except EngErr AckState
  | .opInit g o off flags nbopg len qd objlen now =>
    .ok (quicrq_datagram_ack_init cfg s g o off flags nbopg len qd objlen
      now).2
  | .opAck g o off len => quicrq_datagram_handle_ack s g o off len
  | .opRepeat g o off data pe now =>
    (quicrq_datagram_handle_repeat qmax pmax hdrLen cfg mid s g o off data
      pe now).map (fun p => p.2)
  | .opLost g o off sent_time data now =>
    (quicrq_datagram_handle_lost qmax pmax hdrLen cfg mid s g o off
      sent_time data now).map (fun p => p.2)

/-- Boundedness and consistency side conditions under which an operation
keeps the engine state well-formed: fragments are far from the 2^64
wrap-around, an initialized fragment does not overlap an existing one of
the same object, and a repeated or NACKed fragment is the top fragment of
its object with its stored payload and an acked range clear of the
horizon. -/
def ackOpSidecond (s : AckState) : AckOp → Prop
  | .opInit g o off _ nbopg len _ objlen _ =>
    g < 2 ^ 61 ∧ o < 2 ^ 61 ∧ off + len < 2 ^ 61 ∧ objlen < 2 ^ 61 ∧
    nbopg < 2 ^ 61 ∧
    (∀ x ∈ s.tree, x.group_id = g → x.object_id = o →
      off + len ≤ x.object_offset ∨ x.object_offset + x.length ≤ off)
  | .opAck _ _ _ _ => True
  | .opRepeat g o off data _ _ =>
    off + data.length < 2 ^ 61 ∧
    (∃ r, treeFind s.tree g o off = some r ∧ r.length = data.length) ∧
    (∀ x ∈ s.tree, x.group_id = g → x.object_id = o →
      x.object_offset ≤ off) ∧
    (∀ d, d ≤ data.length →
      ¬ quicrq_datagram_check_horizon s g o (off + d) < 0)
  | .opLost g o off _ data _ =>
    off + data.length < 2 ^ 61 ∧
    (∀ r, treeFind s.tree g o off = some r → r.length = data.length) ∧
    (∀ x ∈ s.tree, x.group_id = g → x.object_id = o →
      x.object_offset ≤ off) ∧
    (∀ d, d ≤ data.length →
      ¬ quicrq_datagram_check_horizon s g o (off + d) < 0)

/-- The prefix test of quicrq_notify_url_to_stream as a predicate. -/
def notifyMatches (st : NotifyStreamView) (url : List Nat) : Prop :=
  st.subscribePfx.length ≤ url.length ∧
  url.take st.subscribePfx.length = st.subscribePfx

instance (st : NotifyStreamView) (url : List Nat) :
    Decidable (notifyMatches st url) := by
  unfold notifyMatches
  infer_instance

/-! Arithmetic bridge lemmas: on values far from the wrap-around boundary
the uint64/int64 idioms of the C code coincide with plain integer
arithmetic. -/

theorem u64add_small {a b : Nat} (h : a + b < M64) : u64add a b = a + b := by
  unfold u64add
  exact Nat.mod_eq_of_lt h

theorem wrapSub_small {a b : Nat} (hb : b ≤ a) (ha : a < M64) :
    wrapSub a b = a - b := by
  unfold wrapSub M64 at *
  rw [Nat.mod_eq_of_lt (show b < 18446744073709551616 by omega)]
  have h1 : a + 18446744073709551616 - b = (a - b) + 18446744073709551616 := by
    omega
  rw [h1, Nat.add_mod_right, Nat.mod_eq_of_lt (by omega)]

theorem toInt64_wrapSub_small {a b : Nat} (ha : a < 2 ^ 62) (hb : b < 2 ^ 62) :
    toInt64 (wrapSub a b) = (a : Int) - (b : Int) := by
  rcases le_or_lt b a with hba | hba
  · rw [wrapSub_small hba (by unfold M64; omega)]
    unfold toInt64 M64
    rw [Nat.mod_eq_of_lt (by omega)]
    rw [if_pos (by omega)]
    omega
  · unfold wrapSub toInt64 M64
    rw [Nat.mod_eq_of_lt (show b < 18446744073709551616 by omega)]
    rw [Nat.mod_eq_of_lt
      (show a + 18446744073709551616 - b < 18446744073709551616 by omega)]
    rw [if_neg (by omega)]
    omega

/-! Tree lemmas: the ack tree is a list kept in key order; lookups,
insertions and in-place updates interact in the expected ways. -/

theorem treeFind_nil (g o off : Nat) : treeFind [] g o off = none := rfl

theorem treeFind_cons (x : DgAckRecord) (xs : List DgAckRecord)
    (g o off : Nat) :
    treeFind (x :: xs) g o off =
      if recKey x = (g, o, off) then some x else treeFind xs g o off := by
  by_cases h : recKey x = (g, o, off)
  · have h1 : x.group_id = g ∧ x.object_id = o ∧ x.object_offset = off := by
      unfold recKey at h
      exact ⟨congrArg Prod.fst h, congrArg (fun p => p.2.1) h,
        congrArg (fun p => p.2.2) h⟩
    simp [treeFind, List.find?, h, h1.1, h1.2.1, h1.2.2]
  · have h1 : ¬(x.group_id = g ∧ x.object_id = o ∧ x.object_offset = off) := by
      intro hc
      exact h (by unfold recKey; rw [hc.1, hc.2.1, hc.2.2])
    simp only [treeFind, List.find?, if_neg h]
    rw [decide_eq_false h1]

theorem treeFind_some_mem {t : List DgAckRecord} {g o off : Nat}
    {r : DgAckRecord} (h : treeFind t g o off = some r) :
    r ∈ t ∧ recKey r = (g, o, off) := by
  induction t with
  | nil => simp [treeFind_nil] at h
  | cons x xs ih =>
    rw [treeFind_cons] at h
    by_cases hx : recKey x = (g, o, off)
    · rw [if_pos hx] at h
      obtain rfl : x = r := Option.some.inj h
      exact ⟨List.mem_cons_self x xs, hx⟩
    · rw [if_neg hx] at h
      obtain ⟨hm, hk⟩ := ih h
      exact ⟨List.mem_cons_of_mem x hm, hk⟩

theorem treeFind_eq_none_iff {t : List DgAckRecord} {g o off : Nat} :
    treeFind t g o off = none ↔ ∀ r ∈ t, recKey r ≠ (g, o, off) := by
  induction t with
  | nil => simp [treeFind_nil]
  | cons x xs ih =>
    rw [treeFind_cons]
    by_cases hx : recKey x = (g, o, off)
    · simp [hx]
    · simp only [if_neg hx, ih, List.mem_cons]
      constructor
      · rintro h r (rfl | hr)
        · exact hx
        · exact h r hr
      · intro h r hr
        exact h r (Or.inr hr)

theorem treeInsert_mem {t : List DgAckRecord} {r x : DgAckRecord}
    (h : x ∈ treeInsert t r) : x ∈ t ∨ x = r := by
  induction t with
  | nil =>
    simp [treeInsert] at h
    exact Or.inr h
  | cons y ys ih =>
    unfold treeInsert at h
    by_cases hc : quicrq_datagram_ack_node_compare r y < 0
    · rw [if_pos hc] at h
      rcases List.mem_cons.mp h with rfl | h2
      · exact Or.inr rfl
      · exact Or.inl h2
    · rw [if_neg hc] at h
      rcases List.mem_cons.mp h with rfl | h2
      · exact Or.inl (List.mem_cons_self _ _)
      · rcases ih h2 with h3 | h3
        · exact Or.inl (List.mem_cons_of_mem _ h3)
        · exact Or.inr h3

theorem treeFind_insert_self {t : List DgAckRecord} {r : DgAckRecord}
    (h : treeFind t r.group_id r.object_id r.object_offset = none) :
    treeFind (treeInsert t r) r.group_id r.object_id r.object_offset =
      some r := by
  induction t with
  | nil => simp [treeInsert, treeFind_cons, recKey]
  | cons x xs ih =>
    rw [treeFind_cons] at h
    by_cases hx : recKey x = (r.group_id, r.object_id, r.object_offset)
    · rw [if_pos hx] at h
      cases h
    · rw [if_neg hx] at h
      unfold treeInsert
      by_cases hc : quicrq_datagram_ack_node_compare r x < 0
      · rw [if_pos hc, treeFind_cons, if_pos (by unfold recKey; rfl)]
      · rw [if_neg hc, treeFind_cons, if_neg hx]
        exact ih h

theorem treeFind_insert_other {t : List DgAckRecord} {r : DgAckRecord}
    {g o off : Nat} (h : recKey r ≠ (g, o, off)) :
    treeFind (treeInsert t r) g o off = treeFind t g o off := by
  induction t with
  | nil => simp [treeInsert, treeFind_cons, treeFind_nil, h]
  | cons x xs ih =>
    unfold treeInsert
    by_cases hc : quicrq_datagram_ack_node_compare r x < 0
    · rw [if_pos hc, treeFind_cons, if_neg h]
    · rw [if_neg hc, treeFind_cons, treeFind_cons]
      by_cases hx : recKey x = (g, o, off)
      · rw [if_pos hx, if_pos hx]
      · rw [if_neg hx, if_neg hx]
        exact ih

theorem treeUpdate_nil (g o off : Nat) (f : DgAckRecord → DgAckRecord) :
    treeUpdate [] g o off f = [] := rfl

theorem treeUpdate_cons (x : DgAckRecord) (xs : List DgAckRecord)
    (g o off : Nat) (f : DgAckRecord → DgAckRecord) :
    treeUpdate (x :: xs) g o off f =
      (if recKey x = (g, o, off) then f x else x) :: treeUpdate xs g o off f := by
  unfold treeUpdate
  rw [List.map_cons]
  by_cases hx : recKey x = (g, o, off)
  · have h1 : x.group_id = g ∧ x.object_id = o ∧ x.object_offset = off := by
      unfold recKey at hx
      exact ⟨congrArg Prod.fst hx, congrArg (fun p => p.2.1) hx,
        congrArg (fun p => p.2.2) hx⟩
    rw [if_pos h1, if_pos hx]
  · have h1 : ¬(x.group_id = g ∧ x.object_id = o ∧ x.object_offset = off) := by
      intro hc
      exact hx (by unfold recKey; rw [hc.1, hc.2.1, hc.2.2])
    rw [if_neg h1, if_neg hx]

theorem treeFind_update_self {t : List DgAckRecord} {g o off : Nat}
    {f : DgAckRecord → DgAckRecord} (hf : ∀ x, recKey (f x) = recKey x) :
    treeFind (treeUpdate t g o off f) g o off =
      (treeFind t g o off).map f := by
  induction t with
  | nil => simp [treeUpdate_nil, treeFind_nil]
  | cons x xs ih =>
    rw [treeUpdate_cons, treeFind_cons, treeFind_cons]
    by_cases hx : recKey x = (g, o, off)
    · rw [if_pos hx, if_pos (by rw [hf x]; exact hx), if_pos hx]
      rfl
    · rw [if_neg hx, if_neg hx, if_neg hx]
      exact ih

theorem treeFind_update_other {t : List DgAckRecord} {g o off g' o' off' : Nat}
    {f : DgAckRecord → DgAckRecord} (hf : ∀ x, recKey (f x) = recKey x)
    (hne : (g', o', off') ≠ (g, o, off)) :
    treeFind (treeUpdate t g o off f) g' o' off' =
      treeFind t g' o' off' := by
  induction t with
  | nil => simp [treeUpdate_nil]
  | cons x xs ih =>
    rw [treeUpdate_cons, treeFind_cons, treeFind_cons]
    by_cases hx : recKey x = (g, o, off)
    · rw [if_pos hx,
        if_neg (show recKey (f x) ≠ (g', o', off') by
          rw [hf x, hx]; exact fun hc => hne hc.symm),
        if_neg (show recKey x ≠ (g', o', off') by
          rw [hx]; exact fun hc => hne hc.symm)]
      exact ih
    · rw [if_neg hx]
      by_cases hx' : recKey x = (g', o', off')
      · rw [if_pos hx', if_pos hx']
      · rw [if_neg hx', if_neg hx']
        exact ih

theorem treeUpdate_id_of_no_match {t : List DgAckRecord} {g o off : Nat}
    {f : DgAckRecord → DgAckRecord}
    (h : ∀ y ∈ t, recKey y ≠ (g, o, off)) :
    treeUpdate t g o off f = t := by
  induction t with
  | nil => rfl
  | cons x xs ih =>
    rw [treeUpdate_cons, if_neg (h x (List.mem_cons_self x xs))]
    rw [ih (fun y hy => h y (List.mem_cons_of_mem x hy))]

theorem nodeCompare_key_congr {a a' : DgAckRecord}
    (h : recKey a = recKey a') (x : DgAckRecord) :
    quicrq_datagram_ack_node_compare a x = quicrq_datagram_ack_node_compare a' x ∧
    quicrq_datagram_ack_node_compare x a = quicrq_datagram_ack_node_compare x a' := by
  have h1 : a.group_id = a'.group_id := congrArg Prod.fst h
  have h2 : a.object_id = a'.object_id := congrArg (fun p => p.2.1) h
  have h3 : a.object_offset = a'.object_offset := congrArg (fun p => p.2.2) h
  unfold quicrq_datagram_ack_node_compare
  rw [h1, h2, h3]
  exact ⟨rfl, rfl⟩

theorem treeInsert_nil (r : DgAckRecord) : treeInsert [] r = [r] := rfl

theorem treeInsert_cons (x : DgAckRecord) (xs : List DgAckRecord)
    (r : DgAckRecord) :
    treeInsert (x :: xs) r =
      if quicrq_datagram_ack_node_compare r x < 0 then r :: x :: xs
      else x :: treeInsert xs r := rfl

theorem treeUpdate_insert_comm {t : List DgAckRecord} {r : DgAckRecord}
    {g o off : Nat} {f : DgAckRecord → DgAckRecord}
    (hf : ∀ x, recKey (f x) = recKey x) (hne : recKey r ≠ (g, o, off)) :
    treeUpdate (treeInsert t r) g o off f =
      treeInsert (treeUpdate t g o off f) r := by
  induction t with
  | nil => simp [treeInsert_nil, treeUpdate_nil, treeUpdate_cons, hne]
  | cons x xs ih =>
    have hcongr : quicrq_datagram_ack_node_compare r (f x) =
        quicrq_datagram_ack_node_compare r x :=
      (nodeCompare_key_congr (hf x) r).2
    by_cases hx : recKey x = (g, o, off)
    · by_cases hc : quicrq_datagram_ack_node_compare r x < 0
      · rw [treeInsert_cons, if_pos hc, treeUpdate_cons, if_neg hne,
          treeUpdate_cons, if_pos hx,
          treeInsert_cons, if_pos (by rw [hcongr]; exact hc)]
      · rw [treeInsert_cons, if_neg hc, treeUpdate_cons, if_pos hx,
          treeUpdate_cons, if_pos hx, treeInsert_cons,
          if_neg (by rw [hcongr]; exact hc), ih]
    · by_cases hc : quicrq_datagram_ack_node_compare r x < 0
      · rw [treeInsert_cons, if_pos hc, treeUpdate_cons, if_neg hne,
          treeUpdate_cons, if_neg hx,
          treeInsert_cons, if_pos hc]
      · rw [treeInsert_cons, if_neg hc, treeUpdate_cons, if_neg hx,
          treeUpdate_cons, if_neg hx, treeInsert_cons, if_neg hc, ih]

theorem treeUpdate_insert_self {t : List DgAckRecord} {r : DgAckRecord}
    {f : DgAckRecord → DgAckRecord} (hf : ∀ x, recKey (f x) = recKey x)
    (h : ∀ x ∈ t, recKey x ≠ recKey r) :
    treeUpdate (treeInsert t r) r.group_id r.object_id r.object_offset f =
      treeInsert t (f r) := by
  have hrk : recKey r = (r.group_id, r.object_id, r.object_offset) := rfl
  induction t with
  | nil =>
    rw [treeInsert_nil, treeInsert_nil, treeUpdate_cons, if_pos hrk,
      treeUpdate_nil]
  | cons x xs ih =>
    have hx : recKey x ≠ recKey r := h x (List.mem_cons_self x xs)
    have hxk : recKey x ≠ (r.group_id, r.object_id, r.object_offset) :=
      fun hc => hx (hc.trans hrk.symm)
    have hcongr : quicrq_datagram_ack_node_compare (f r) x =
        quicrq_datagram_ack_node_compare r x :=
      (nodeCompare_key_congr (hf r) x).1
    by_cases hc : quicrq_datagram_ack_node_compare r x < 0
    · rw [treeInsert_cons, if_pos hc, treeUpdate_cons, if_pos hrk,
        treeUpdate_cons, if_neg hxk,
        treeUpdate_id_of_no_match (fun y hy =>
          fun hyk => h y (List.mem_cons_of_mem x hy) (hyk.trans hrk.symm)),
        treeInsert_cons, if_pos (by rw [hcongr]; exact hc)]
    · rw [treeInsert_cons, if_neg hc, treeUpdate_cons, if_neg hxk,
        ih (fun y hy => h y (List.mem_cons_of_mem x hy)),
        treeInsert_cons, if_neg (by rw [hcongr]; exact hc)]

/-! Key order lemmas. -/

theorem keyLexLt_irrefl (a : Nat × Nat × Nat) : ¬ keyLexLt a a := by
  obtain ⟨a1, a2, a3⟩ := a
  unfold keyLexLt
  simp only
  omega

theorem keyLexLt_asymm {a b : Nat × Nat × Nat} (h : keyLexLt a b) :
    ¬ keyLexLt b a := by
  obtain ⟨a1, a2, a3⟩ := a
  obtain ⟨b1, b2, b3⟩ := b
  unfold keyLexLt at *
  simp only at *
  omega

theorem keyLexLt_trans {a b c : Nat × Nat × Nat} (h1 : keyLexLt a b)
    (h2 : keyLexLt b c) : keyLexLt a c := by
  obtain ⟨a1, a2, a3⟩ := a
  obtain ⟨b1, b2, b3⟩ := b
  obtain ⟨c1, c2, c3⟩ := c
  unfold keyLexLt at *
  simp only at *
  omega

theorem keyLexLt_trichot (a b : Nat × Nat × Nat) :
    keyLexLt a b ∨ a = b ∨ keyLexLt b a := by
  obtain ⟨a1, a2, a3⟩ := a
  obtain ⟨b1, b2, b3⟩ := b
  unfold keyLexLt
  simp only [Prod.mk.injEq]
  omega

theorem keyLexLt_ne {a b : Nat × Nat × Nat} (h : keyLexLt a b) : a ≠ b := by
  rintro rfl
  exact keyLexLt_irrefl a h

theorem keyLexLe_of_lt {a b : Nat × Nat × Nat} (h : keyLexLt a b) :
    keyLexLe a b := Or.inl h

theorem keyLexLe_trans_lt {a b c : Nat × Nat × Nat} (h1 : keyLexLe a b)
    (h2 : keyLexLt b c) : keyLexLe a c := by
  rcases h1 with h1 | rfl
  · exact Or.inl (keyLexLt_trans h1 h2)
  · exact Or.inl h2

theorem keyLexLt_fst_any {g1 o1 x1 g2 o2 x2 : Nat}
    (h : keyLexLt (g1, o1, x1) (g2, o2, x2)) (hne : (g1, o1) ≠ (g2, o2)) :
    ∀ y, keyLexLt (g1, o1, y) (g2, o2, x2) := by
  intro y
  unfold keyLexLt at h ⊢
  simp only at h ⊢
  rcases h with h | ⟨he, h⟩
  · exact Or.inl h
  · refine Or.inr ⟨he, ?_⟩
    rcases h with h | ⟨he2, _⟩
    · exact Or.inl h
    · exact absurd (show (g1, o1) = (g2, o2) by rw [he, he2]) hne

theorem nodeCompare_neg_iff {a b : DgAckRecord} (ha : smallRec a)
    (hb : smallRec b) :
    quicrq_datagram_ack_node_compare a b < 0 ↔
      keyLexLt (recKey a) (recKey b) := by
  obtain ⟨ha1, ha2, ha3, -, -⟩ := ha
  obtain ⟨hb1, hb2, hb3, -, -⟩ := hb
  unfold quicrq_datagram_ack_node_compare
  rw [toInt64_wrapSub_small (by omega) (by omega),
    toInt64_wrapSub_small (by omega) (by omega),
    toInt64_wrapSub_small (by omega) (by omega)]
  unfold keyLexLt recKey
  simp only
  split_ifs with h1 h2 <;> omega

theorem checkHorizon_neg_iff {s : AckState} {g o off : Nat}
    (hh : s.horizon_group_id < 2 ^ 62 ∧ s.horizon_object_id < 2 ^ 62 ∧
      s.horizon_offset < 2 ^ 62)
    (hk : g < 2 ^ 62 ∧ o < 2 ^ 62 ∧ off < 2 ^ 62) :
    quicrq_datagram_check_horizon s g o off < 0 ↔
      keyLexLt (g, o, off) (horizonKey s) := by
  unfold quicrq_datagram_check_horizon
  rw [toInt64_wrapSub_small (by omega) (by omega),
    toInt64_wrapSub_small (by omega) (by omega),
    toInt64_wrapSub_small (by omega) (by omega)]
  unfold keyLexLt horizonKey
  simp only
  split_ifs with h1 h2 <;> omega

theorem checkHorizon_sentinel {s : AckState} {g o off : Nat}
    (h1 : s.horizon_group_id = U64MAX) (hg : g < 2 ^ 62) :
    ¬ quicrq_datagram_check_horizon s g o off < 0 := by
  unfold quicrq_datagram_check_horizon
  have hws : wrapSub g s.horizon_group_id = g + 1 := by
    rw [h1]
    unfold wrapSub U64MAX M64
    omega
  rw [hws]
  have ht : toInt64 (g + 1) = ((g + 1 : Nat) : Int) := by
    unfold toInt64 M64
    rw [Nat.mod_eq_of_lt (by omega), if_pos (by omega)]
  rw [ht]
  rw [if_neg (by omega)]
  omega

theorem sorted_rel_of_mem {t : List DgAckRecord} (ht : sortedNonoverlap t)
    {a b : DgAckRecord} (ha : a ∈ t) (hb : b ∈ t)
    (hlt : keyLexLt (recKey a) (recKey b)) : overlapOrd a b := by
  induction t with
  | nil => cases ha
  | cons x xs ih =>
    have hx := List.pairwise_cons.mp ht
    rcases List.mem_cons.mp ha with rfl | ha2
    · rcases List.mem_cons.mp hb with rfl | hb2
      · exact absurd hlt (keyLexLt_irrefl _)
      · exact hx.1 b hb2
    · rcases List.mem_cons.mp hb with rfl | hb2
      · exact absurd (hx.1 a ha2).1 (keyLexLt_asymm hlt)
      · exact ih hx.2 ha2 hb2

theorem sorted_key_unique {t : List DgAckRecord} (ht : sortedNonoverlap t)
    {a b : DgAckRecord} (ha : a ∈ t) (hb : b ∈ t)
    (hk : recKey a = recKey b) : a = b := by
  induction t with
  | nil => cases ha
  | cons x xs ih =>
    have hx := List.pairwise_cons.mp ht
    rcases List.mem_cons.mp ha with rfl | ha2
    · rcases List.mem_cons.mp hb with rfl | hb2
      · rfl
      · exact absurd (hx.1 b hb2).1 (hk ▸ keyLexLt_irrefl (recKey b))
    · rcases List.mem_cons.mp hb with rfl | hb2
      · exact absurd (hx.1 a ha2).1 (hk ▸ keyLexLt_irrefl (recKey a))
      · exact ih hx.2 ha2 hb2

theorem treeFind_of_mem_sorted {t : List DgAckRecord}
    (ht : sortedNonoverlap t) {r : DgAckRecord} (hr : r ∈ t) :
    treeFind t r.group_id r.object_id r.object_offset = some r := by
  cases hfind : treeFind t r.group_id r.object_id r.object_offset with
  | none =>
    exact absurd rfl (treeFind_eq_none_iff.mp hfind r hr)
  | some r' =>
    obtain ⟨hm, hk⟩ := treeFind_some_mem hfind
    rw [sorted_key_unique ht hm hr hk]

theorem recKey_skel (r : DgAckRecord) : recKey (skel r) = recKey r := rfl

theorem overlapOrd_skel (a b : DgAckRecord) :
    overlapOrd (skel a) (skel b) ↔ overlapOrd a b := Iff.rfl

theorem smallRec_skel (r : DgAckRecord) : smallRec (skel r) ↔ smallRec r :=
  Iff.rfl

theorem sortedNonoverlap_iff_skel (t : List DgAckRecord) :
    sortedNonoverlap t ↔ sortedNonoverlap (t.map skel) := by
  unfold sortedNonoverlap
  rw [List.pairwise_map]
  exact Iff.rfl

theorem sortedNonoverlap_of_skel_eq {t1 t2 : List DgAckRecord}
    (h : t1.map skel = t2.map skel) (h2 : sortedNonoverlap t2) :
    sortedNonoverlap t1 := by
  rw [sortedNonoverlap_iff_skel, h, ← sortedNonoverlap_iff_skel]
  exact h2

theorem smallAll_of_skel_eq {t1 t2 : List DgAckRecord}
    (h : t1.map skel = t2.map skel) (h2 : ∀ r ∈ t2, smallRec r) :
    ∀ r ∈ t1, smallRec r := by
  intro r hr
  have hm : skel r ∈ t2.map skel := h ▸ List.mem_map_of_mem skel hr
  obtain ⟨y, hy, hys⟩ := List.mem_map.mp hm
  have : smallRec (skel y) := (smallRec_skel y).mpr (h2 y hy)
  rw [hys] at this
  exact (smallRec_skel r).mp this

theorem keys_of_skel_eq {t1 t2 : List DgAckRecord}
    (h : t1.map skel = t2.map skel) :
    t1.map recKey = t2.map recKey := by
  have h1 : t1.map recKey = (t1.map skel).map recKey := by
    rw [List.map_map]
    rfl
  have h2 : t2.map recKey = (t2.map skel).map recKey := by
    rw [List.map_map]
    rfl
  rw [h1, h2, h]

theorem keyLe_all_of_skel_eq {t1 t2 : List DgAckRecord}
    (h : t1.map skel = t2.map skel) {k : Nat × Nat × Nat}
    (h2 : ∀ r ∈ t2, keyLexLe k (recKey r)) :
    ∀ r ∈ t1, keyLexLe k (recKey r) := by
  intro r hr
  have hm : recKey r ∈ t1.map recKey := List.mem_map_of_mem recKey hr
  rw [keys_of_skel_eq h] at hm
  obtain ⟨y, hy, hys⟩ := List.mem_map.mp hm
  rw [← hys]
  exact h2 y hy

theorem markAckedAt_map_skel (t : List DgAckRecord) (i : Nat) :
    (markAckedAt t i).map skel = t.map skel := by
  induction t generalizing i with
  | nil => rfl
  | cons x xs ih =>
    cases i with
    | zero => rfl
    | succ n =>
      unfold markAckedAt
      rw [List.map_cons, List.map_cons, ih]

theorem markLoop_map_skel {g o : Nat} :
    ∀ fuel (t : List DgAckRecord) (i : Nat) (alen : Int) (aoff : Nat)
      (t' : List DgAckRecord),
      markLoop g o fuel t i alen aoff = .ok t' → t'.map skel = t.map skel := by
  intro fuel
  induction fuel with
  | zero =>
    intro t i alen aoff t' h
    cases h
    rfl
  | succ n ih =>
    intro t i alen aoff t' h
    unfold markLoop at h
    split_ifs at h with h1
    · cases h
      rfl
    · cases hg : t.get? i with
      | none =>
        rw [hg] at h
        cases h
        rfl
      | some r =>
        rw [hg] at h
        simp only at h
        split_ifs at h with h2
        · cases hg2 : (markAckedAt t i).get? (i + 1) with
          | none =>
            rw [hg2] at h
            cases h
          | some rn =>
            rw [hg2] at h
            simp only at h
            split_ifs at h with h3
            · cases h
              exact markAckedAt_map_skel t i
            · have := ih (markAckedAt t i) (i + 1)
                (alen - (r.length : Int)) (u64add aoff r.length) t' h
              rw [this, markAckedAt_map_skel]
        · cases h
          exact markAckedAt_map_skel t i

/-! Preservation through the horizon advance walk. -/

theorem keyLexLe_of_le_third {g o x1 x2 : Nat} (h : x1 ≤ x2) :
    keyLexLe (g, o, x1) (g, o, x2) := by
  rcases eq_or_lt_of_le h with rfl | hlt
  · exact Or.inr rfl
  · exact Or.inl (Or.inr ⟨rfl, Or.inr ⟨rfl, hlt⟩⟩)

theorem advanceGo_succ_nil {n : Nat} {s : AckState} (h : s.tree = []) :
    advanceGo (n + 1) s = s := by
  simp only [advanceGo]
  rw [h]

theorem advanceGo_succ_cons {n : Nat} {s : AckState} {das : DgAckRecord}
    {rest : List DgAckRecord} (h : s.tree = das :: rest) :
    advanceGo (n + 1) s =
      if das.is_acked = false then s
      else if justAfter s.horizon_group_id s.horizon_object_id
          s.horizon_offset s.horizon_is_last_fragment das then
        advanceGo n (advanceStep s das rest)
      else s := by
  simp only [advanceGo]
  rw [h]

theorem advanceStep_wf {s : AckState} {das : DgAckRecord}
    {rest : List DgAckRecord} (htree : s.tree = das :: rest)
    (hwf : ackWf s) : ackWf (advanceStep s das rest) ∧
      ackHorizonInv (advanceStep s das rest) := by
  obtain ⟨hsorted, hsmall, hhok⟩ := hwf
  rw [htree] at hsorted hsmall
  have hdsmall : smallRec das := hsmall das (List.mem_cons_self _ _)
  obtain ⟨hd1, hd2, hd3, hd4, hd5⟩ := hdsmall
  have hadd : u64add das.object_offset das.length =
      das.object_offset + das.length :=
    u64add_small (by unfold M64; omega)
  have hpair := List.pairwise_cons.mp hsorted
  refine ⟨⟨hpair.2, fun r hr => hsmall r (List.mem_cons_of_mem das hr),
    Or.inr ?_⟩, ?_⟩
  · show das.group_id < 2 ^ 62 ∧ das.object_id < 2 ^ 62 ∧
      u64add das.object_offset das.length < 2 ^ 62
    rw [hadd]
    omega
  · intro _ r hr
    have hr2 : r ∈ rest := hr
    have hrel := hpair.1 r hr2
    obtain ⟨hlt, hovl⟩ := hrel
    show keyLexLe
      (das.group_id, das.object_id, u64add das.object_offset das.length)
      (recKey r)
    rw [hadd]
    by_cases hsame : das.group_id = r.group_id ∧
        das.object_id = r.object_id
    · have hle := hovl hsame
      have hk : recKey r = (das.group_id, das.object_id, r.object_offset) := by
        unfold recKey
        rw [hsame.1, hsame.2]
      rw [hk]
      exact keyLexLe_of_le_third hle
    · have hne2 : (das.group_id, das.object_id) ≠
          (r.group_id, r.object_id) := by
        intro hc
        exact hsame ⟨congrArg Prod.fst hc, congrArg Prod.snd hc⟩
      exact Or.inl (keyLexLt_fst_any (show keyLexLt
        (das.group_id, das.object_id, das.object_offset)
        (r.group_id, r.object_id, r.object_offset) from hlt) hne2
        (das.object_offset + das.length))

theorem advanceGo_wf :
    ∀ fuel (s : AckState), ackWf s → ackHorizonInv s →
      ackWf (advanceGo fuel s) ∧ ackHorizonInv (advanceGo fuel s) := by
  intro fuel
  induction fuel with
  | zero => exact fun s hwf hinv => ⟨hwf, hinv⟩
  | succ n ih =>
    intro s hwf hinv
    cases htree : s.tree with
    | nil =>
      rw [advanceGo_succ_nil htree]
      exact ⟨hwf, hinv⟩
    | cons das rest =>
      rw [advanceGo_succ_cons htree]
      by_cases hack : das.is_acked = false
      · rw [if_pos hack]
        exact ⟨hwf, hinv⟩
      · rw [if_neg hack]
        by_cases hja : justAfter s.horizon_group_id s.horizon_object_id
            s.horizon_offset s.horizon_is_last_fragment das = true
        · rw [if_pos hja]
          obtain ⟨hwf2, hinv2⟩ := advanceStep_wf htree hwf
          exact ih _ hwf2 hinv2
        · rw [if_neg hja]
          exact ⟨hwf, hinv⟩

theorem exceptMap_ok {ε α β : Type} {e : Except ε α} {f : α → β} {b : β}
    (h : e.map f = .ok b) : ∃ a, e = .ok a ∧ f a = b := by
  cases e with
  | error ex => simp [Except.map] at h
  | ok a =>
    refine ⟨a, rfl, ?_⟩
    simpa [Except.map] using h

theorem ackPhase1_state (s : AckState) (g o off len : Nat) :
    ((ackPhase1 s g o off len).2.2.2.2).tree = s.tree ∧
    ((ackPhase1 s g o off len).2.2.2.2).horizon_group_id =
      s.horizon_group_id ∧
    ((ackPhase1 s g o off len).2.2.2.2).horizon_object_id =
      s.horizon_object_id ∧
    ((ackPhase1 s g o off len).2.2.2.2).horizon_offset = s.horizon_offset := by
  unfold ackPhase1
  dsimp only
  split_ifs <;> exact ⟨rfl, rfl, rfl, rfl⟩

theorem ackWf_congr {s s' : AckState} (ht : s'.tree = s.tree)
    (hg : s'.horizon_group_id = s.horizon_group_id)
    (ho : s'.horizon_object_id = s.horizon_object_id)
    (hf : s'.horizon_offset = s.horizon_offset) (h : ackWf s) : ackWf s' := by
  unfold ackWf horizonOk horizonKey at *
  rw [ht, hg, ho, hf]
  exact h

theorem ackHorizonInv_congr {s s' : AckState} (ht : s'.tree = s.tree)
    (hg : s'.horizon_group_id = s.horizon_group_id)
    (ho : s'.horizon_object_id = s.horizon_object_id)
    (hf : s'.horizon_offset = s.horizon_offset) (h : ackHorizonInv s) :
    ackHorizonInv s' := by
  unfold ackHorizonInv horizonKey at *
  rw [ht, hg, ho, hf]
  exact h

theorem wf_inv_of_tree_skel {s : AckState} {t' : List DgAckRecord}
    (hskel : t'.map skel = s.tree.map skel) (hwf : ackWf s)
    (hinv : ackHorizonInv s) :
    ackWf { s with tree := t' } ∧ ackHorizonInv { s with tree := t' } := by
  obtain ⟨hsorted, hsmall, hhok⟩ := hwf
  refine ⟨⟨sortedNonoverlap_of_skel_eq hskel hsorted,
    smallAll_of_skel_eq hskel hsmall, ?_⟩, ?_⟩
  · show horizonOk { s with tree := t' }
    unfold horizonOk horizonKey at hhok ⊢
    exact hhok
  · intro hne r hr
    have hne2 : horizonKey s ≠ (U64MAX, U64MAX, U64MAX) := hne
    exact keyLe_all_of_skel_eq hskel (hinv hne2) r hr

/-- Preservation of well-formedness and the horizon invariant through
quicrq_datagram_handle_ack (when it does not crash). -/
theorem handle_ack_preserves {s : AckState} {g o off len : Nat}
    (hwf : ackWf s) (hinv : ackHorizonInv s) {s' : AckState}
    (h : quicrq_datagram_handle_ack s g o off len = .ok s') :
    ackWf s' ∧ ackHorizonInv s' := by
  unfold quicrq_datagram_handle_ack at h
  obtain ⟨hst, hsg, hso, hsf⟩ := ackPhase1_state s g o off len
  obtain ⟨s2, h2, h3⟩ := exceptMap_ok h
  have hs2 : ackWf s2 ∧ ackHorizonInv s2 := by
    by_cases hb : (ackPhase1 s g o off len).1 = true
    · rw [if_pos hb] at h2
      cases h2
      exact ⟨ackWf_congr hst hsg hso hsf hwf,
        ackHorizonInv_congr hst hsg hso hsf hinv⟩
    · rw [if_neg hb] at h2
      cases hidx : findKeyIdx ((ackPhase1 s g o off len).2.2.2.2).tree g o
          (ackPhase1 s g o off len).2.2.1 with
      | none =>
        rw [hidx] at h2
        cases h2
        exact ⟨ackWf_congr hst hsg hso hsf hwf,
          ackHorizonInv_congr hst hsg hso hsf hinv⟩
      | some i =>
        rw [hidx] at h2
        obtain ⟨t', h4, h5⟩ := exceptMap_ok h2
        have hskel := markLoop_map_skel _ _ _ _ _ _ h4
        rw [← h5]
        exact wf_inv_of_tree_skel hskel
          (ackWf_congr hst hsg hso hsf hwf)
          (ackHorizonInv_congr hst hsg hso hsf hinv)
  by_cases hshould : (ackPhase1 s g o off len).2.1 = true
  · rw [if_pos hshould] at h3
    cases h3
    exact advanceGo_wf _ s2 hs2.1 hs2.2
  · rw [if_neg hshould] at h3
    cases h3
    exact hs2

theorem keyLexLt_same_lt {g o a b : Nat} (h : keyLexLt (g, o, a) (g, o, b)) :
    a < b := by
  unfold keyLexLt at h
  simp only at h
  omega

/-- Inserting a fresh, duplicate-free, overlap-compatible record keeps the
tree sorted and non-overlapping. -/
theorem sortedNonoverlap_insert {t : List DgAckRecord} {r : DgAckRecord}
    (hs : sortedNonoverlap t) (hsmall : ∀ x ∈ t, smallRec x)
    (hrsmall : smallRec r)
    (hcompat : ∀ x ∈ t,
      (keyLexLt (recKey x) (recKey r) →
        (x.group_id = r.group_id ∧ x.object_id = r.object_id →
          x.object_offset + x.length ≤ r.object_offset)) ∧
      (keyLexLt (recKey r) (recKey x) →
        (r.group_id = x.group_id ∧ r.object_id = x.object_id →
          r.object_offset + r.length ≤ x.object_offset)))
    (hne : ∀ x ∈ t, recKey x ≠ recKey r) :
    sortedNonoverlap (treeInsert t r) := by
  induction t with
  | nil => exact List.pairwise_singleton _ _
  | cons x xs ih =>
    have hxmem := List.mem_cons_self x xs
    have hxsmall := hsmall x hxmem
    have hpair := List.pairwise_cons.mp hs
    rw [treeInsert_cons]
    by_cases hc : quicrq_datagram_ack_node_compare r x < 0
    · rw [if_pos hc]
      have hrx : keyLexLt (recKey r) (recKey x) :=
        (nodeCompare_neg_iff hrsmall hxsmall).mp hc
      refine List.pairwise_cons.mpr ⟨?_, hs⟩
      intro y hy
      rcases List.mem_cons.mp hy with rfl | hy2
      · exact ⟨hrx, (hcompat y hxmem).2 hrx⟩
      · have hxy : keyLexLt (recKey x) (recKey y) := (hpair.1 y hy2).1
        have hry := keyLexLt_trans hrx hxy
        exact ⟨hry, (hcompat y (List.mem_cons_of_mem x hy2)).2 hry⟩
    · rw [if_neg hc]
      have hnrx : ¬ keyLexLt (recKey r) (recKey x) := fun hlt =>
        hc ((nodeCompare_neg_iff hrsmall hxsmall).mpr hlt)
      have hxr : keyLexLt (recKey x) (recKey r) := by
        rcases keyLexLt_trichot (recKey x) (recKey r) with h1 | h1 | h1
        · exact h1
        · exact absurd h1 (hne x hxmem)
        · exact absurd h1 hnrx
      refine List.pairwise_cons.mpr ⟨?_, ?_⟩
      · intro y hy
        rcases treeInsert_mem hy with hy2 | rfl
        · exact hpair.1 y hy2
        · exact ⟨hxr, (hcompat x hxmem).1 hxr⟩
      · exact ih hpair.2 (fun z hz => hsmall z (List.mem_cons_of_mem x hz))
          (fun z hz => hcompat z (List.mem_cons_of_mem x hz))
          (fun z hz => hne z (List.mem_cons_of_mem x hz))

theorem treeUpdate_map_skel {t : List DgAckRecord} {g o off : Nat}
    {f : DgAckRecord → DgAckRecord} (hf : ∀ x, skel (f x) = skel x) :
    (treeUpdate t g o off f).map skel = t.map skel := by
  induction t with
  | nil => rfl
  | cons x xs ih =>
    rw [treeUpdate_cons, List.map_cons, List.map_cons, ih]
    by_cases hx : recKey x = (g, o, off)
    · rw [if_pos hx, hf x]
    · rw [if_neg hx]

/-- The extra-repeat queue step touches no key, length, or horizon field. -/
theorem extraQueue_wf_inv {s : AckState} {g o off rt : Nat}
    (hwf : ackWf s) (hinv : ackHorizonInv s) :
    ackWf (quicrq_datagram_ack_extra_queue s g o off rt) ∧
      ackHorizonInv (quicrq_datagram_ack_extra_queue s g o off rt) := by
  unfold quicrq_datagram_ack_extra_queue
  cases hfind : treeFind s.tree g o off with
  | none => exact ⟨hwf, hinv⟩
  | some r =>
    dsimp only
    by_cases hq : r.is_extra_queued
    · rw [if_pos hq]
      exact ⟨hwf, hinv⟩
    · rw [if_neg hq]
      have hskel : (treeUpdate s.tree g o off (fun x =>
          { x with is_extra_queued := true, has_extra_data := true
                   extra_repeat_time := rt })).map skel = s.tree.map skel :=
        treeUpdate_map_skel (fun x => rfl)
      obtain ⟨hsorted, hsmall, hhok⟩ := hwf
      refine ⟨⟨sortedNonoverlap_of_skel_eq hskel hsorted,
        smallAll_of_skel_eq hskel hsmall, ?_⟩, ?_⟩
      · unfold horizonOk horizonKey at hhok ⊢
        exact hhok
      · intro hne r2 hr2
        exact keyLe_all_of_skel_eq hskel
          (hinv (show horizonKey s ≠ (U64MAX, U64MAX, U64MAX) from hne)) r2 hr2

/-- quicrq_datagram_ack_init preserves well-formedness and the horizon
invariant whenever the new fragment is small and does not overlap an
existing fragment of the same object. -/
theorem ack_init_preserves {cfg : QrConfig} {s : AckState}
    {g o off flags nbopg len qd objlen now : Nat}
    (hwf : ackWf s) (hinv : ackHorizonInv s)
    (hg : g < 2 ^ 61) (ho : o < 2 ^ 61) (hof : off + len < 2 ^ 61)
    (hol : objlen < 2 ^ 61) (hnb : nbopg < 2 ^ 61)
    (hnov : ∀ x ∈ s.tree, x.group_id = g → x.object_id = o →
      off + len ≤ x.object_offset ∨ x.object_offset + x.length ≤ off) :
    ackWf (quicrq_datagram_ack_init cfg s g o off flags nbopg len qd objlen
      now).2 ∧
    ackHorizonInv (quicrq_datagram_ack_init cfg s g o off flags nbopg len qd
      objlen now).2 := by
  unfold quicrq_datagram_ack_init
  by_cases hchk : quicrq_datagram_check_horizon s g o off < 0
  · rw [if_pos hchk]
    exact ⟨ackWf_congr rfl rfl rfl rfl hwf,
      ackHorizonInv_congr rfl rfl rfl rfl hinv⟩
  · rw [if_neg hchk]
    cases hfind : treeFind s.tree g o off with
    | some rOld => exact ⟨hwf, hinv⟩
    | none =>
      dsimp only
      obtain ⟨hsorted, hsmall, hhok⟩ := hwf
      have hnodup := treeFind_eq_none_iff.mp hfind
      -- well-formedness and invariant after the bare insertion
      have hkey : ∀ x ∈ s.tree, x.group_id = g ∧ x.object_id = o →
          recKey x = (g, o, x.object_offset) := by
        intro x _ hxy
        unfold recKey
        rw [hxy.1, hxy.2]
      have hwf1 : ackWf { s with tree := (treeInsert s.tree
          (newAckRecord g o off flags nbopg len qd objlen now)) } := by
        refine ⟨?_, ?_, hhok⟩
        · refine sortedNonoverlap_insert hsorted hsmall
            ⟨hg, ho, hof, hol, hnb⟩ ?_ ?_
          · intro x hx
            constructor
            · intro hlt hsame
              rcases hnov x hx hsame.1 hsame.2 with h1 | h1
              · have hxk := hkey x hx ⟨hsame.1, hsame.2⟩
                rw [hxk] at hlt
                have h2 : x.object_offset < off := keyLexLt_same_lt hlt
                simp only [newAckRecord]
                omega
              · exact h1
            · intro hlt hsame
              rcases hnov x hx hsame.1.symm hsame.2.symm with h1 | h1
              · exact h1
              · have hxk := hkey x hx ⟨hsame.1.symm, hsame.2.symm⟩
                rw [hxk] at hlt
                have h2 : off < x.object_offset := keyLexLt_same_lt hlt
                simp only [newAckRecord]
                omega
          · intro x hx
            exact hnodup x hx
        · intro x hx
          rcases treeInsert_mem hx with h1 | rfl
          · exact hsmall x h1
          · exact ⟨hg, ho, hof, hol, hnb⟩
      have hinv1 : ackHorizonInv { s with tree := (treeInsert s.tree
          (newAckRecord g o off flags nbopg len qd objlen now)) } := by
        intro hne r hr
        have hne2 : horizonKey s ≠ (U64MAX, U64MAX, U64MAX) := hne
        rcases treeInsert_mem hr with h1 | rfl
        · exact hinv hne2 r h1
        · -- the new key is at or above the initialized horizon
          have hhsmall : s.horizon_group_id < 2 ^ 62 ∧
              s.horizon_object_id < 2 ^ 62 ∧ s.horizon_offset < 2 ^ 62 := by
            rcases hhok with h2 | h2
            · exact absurd h2 hne2
            · exact h2
          have hniff := checkHorizon_neg_iff hhsmall
            (⟨by omega, by omega, by omega⟩ :
              g < 2 ^ 62 ∧ o < 2 ^ 62 ∧ off < 2 ^ 62)
          have hnlt : ¬ keyLexLt (g, o, off) (horizonKey s) :=
            fun hlt => hchk (hniff.mpr hlt)
          show keyLexLe (horizonKey s) (g, o, off)
          rcases keyLexLt_trichot (horizonKey s) (g, o, off) with h1 | h1 | h1
          · exact Or.inl h1
          · exact Or.inr h1
          · exact absurd h1 hnlt
      split_ifs with hx
      · exact extraQueue_wf_inv hwf1 hinv1
      · exact ⟨hwf1, hinv1⟩

theorem horizonQuad_updateRec (s : AckState) (g o off : Nat)
    (f : DgAckRecord → DgAckRecord) :
    horizonQuad (updateRec s g o off f) = horizonQuad s := rfl

theorem horizonQuad_extraQueue (s : AckState) (g o off rt : Nat) :
    horizonQuad (quicrq_datagram_ack_extra_queue s g o off rt) =
      horizonQuad s := by
  unfold quicrq_datagram_ack_extra_queue
  cases treeFind s.tree g o off with
  | none => rfl
  | some r =>
    dsimp only
    split_ifs <;> rfl

theorem horizonQuad_ackInit (cfg : QrConfig) (s : AckState)
    (g o off flags nbopg len qd objlen now : Nat) :
    horizonQuad (quicrq_datagram_ack_init cfg s g o off flags nbopg len qd
      objlen now).2 = horizonQuad s := by
  unfold quicrq_datagram_ack_init
  by_cases h1 : quicrq_datagram_check_horizon s g o off < 0
  · rw [if_pos h1]
    rfl
  · rw [if_neg h1]
    cases hfind : treeFind s.tree g o off with
    | some r => rfl
    | none =>
      dsimp only
      split_ifs with h2
      · rw [horizonQuad_extraQueue]
        rfl
      · rfl

theorem checkHorizon_congr {s s' : AckState}
    (h : horizonQuad s' = horizonQuad s) (g o off : Nat) :
    quicrq_datagram_check_horizon s' g o off =
      quicrq_datagram_check_horizon s g o off := by
  unfold quicrq_datagram_check_horizon
  rw [show s'.horizon_group_id = s.horizon_group_id from
      congrArg (fun q => q.1) h,
    show s'.horizon_object_id = s.horizon_object_id from
      congrArg (fun q => q.2.1) h,
    show s'.horizon_offset = s.horizon_offset from
      congrArg (fun q => q.2.2.1) h]

/-- Lookup at the updated key through updateRec. -/
theorem updateRec_find_self {s : AckState} {g o off : Nat}
    (f : DgAckRecord → DgAckRecord) (hf : ∀ x, recKey (f x) = recKey x) :
    treeFind (updateRec s g o off f).tree g o off =
      (treeFind s.tree g o off).map f :=
  treeFind_update_self hf

/-- Lookup at another key through updateRec. -/
theorem updateRec_find_other {s : AckState} {g o off g' o' off' : Nat}
    (f : DgAckRecord → DgAckRecord) (hf : ∀ x, recKey (f x) = recKey x)
    (hne : (g', o', off') ≠ (g, o, off)) :
    treeFind (updateRec s g o off f).tree g' o' off' =
      treeFind s.tree g' o' off' :=
  treeFind_update_other hf hne

/-- Lookup of the queued key through the extra-repeat step. -/
theorem extraQueue_find_self {s : AckState} {g o off rt : Nat}
    {r : DgAckRecord} (h : treeFind s.tree g o off = some r) :
    ∃ rC, treeFind (quicrq_datagram_ack_extra_queue s g o off rt).tree
        g o off = some rC ∧
      rC.length = r.length ∧ rC.flags = r.flags ∧
      rC.object_length = r.object_length ∧
      rC.nack_received = r.nack_received ∧
      rC.queue_delay = r.queue_delay ∧ rC.start_time = r.start_time ∧
      rC.is_extra_queued = true ∧ rC.is_acked = r.is_acked ∧
      rC.nb_objects_previous_group = r.nb_objects_previous_group := by
  unfold quicrq_datagram_ack_extra_queue
  rw [h]
  dsimp only
  by_cases hq : r.is_extra_queued
  · rw [if_pos hq]
    exact ⟨r, h, rfl, rfl, rfl, rfl, rfl, rfl, hq, rfl, rfl⟩
  · rw [if_neg hq]
    have h5 : treeFind (treeUpdate s.tree g o off (fun x =>
        { x with is_extra_queued := true, has_extra_data := true
                 extra_repeat_time := rt })) g o off =
        some { r with is_extra_queued := true, has_extra_data := true
                      extra_repeat_time := rt } := by
      rw [@treeFind_update_self s.tree g o off (fun x =>
        { x with is_extra_queued := true, has_extra_data := true
                 extra_repeat_time := rt }) (fun x => rfl), h]
      rfl
    exact ⟨_, h5, rfl, rfl, rfl, rfl, rfl, rfl, rfl, rfl, rfl⟩

/-- Lookup at another key through the extra-repeat step. -/
theorem extraQueue_find_other {s : AckState} {g o off rt g' o' off' : Nat}
    (hne : (g', o', off') ≠ (g, o, off)) :
    treeFind (quicrq_datagram_ack_extra_queue s g o off rt).tree g' o' off' =
      treeFind s.tree g' o' off' := by
  unfold quicrq_datagram_ack_extra_queue
  cases treeFind s.tree g o off with
  | none => rfl
  | some r =>
    dsimp only
    split_ifs with hq
    · rfl
    · exact treeFind_update_other (fun x => rfl) hne

/-- Every record of an updated tree has the key of a record of the original
tree. -/
theorem treeUpdate_mem_key {t : List DgAckRecord} {g o off : Nat}
    (f : DgAckRecord → DgAckRecord) (hf : ∀ x, recKey (f x) = recKey x)
    {x : DgAckRecord} (hx : x ∈ treeUpdate t g o off f) :
    ∃ y ∈ t, recKey x = recKey y := by
  unfold treeUpdate at hx
  obtain ⟨y, hy, hxy⟩ := List.mem_map.mp hx
  refine ⟨y, hy, ?_⟩
  by_cases hk : y.group_id = g ∧ y.object_id = o ∧ y.object_offset = off
  · rw [if_pos hk] at hxy
    rw [← hxy, hf y]
  · rw [if_neg hk] at hxy
    rw [← hxy]

theorem extraQueue_mem_key {s : AckState} {g o off rt : Nat}
    {x : DgAckRecord}
    (hx : x ∈ (quicrq_datagram_ack_extra_queue s g o off rt).tree) :
    ∃ y ∈ s.tree, recKey x = recKey y := by
  unfold quicrq_datagram_ack_extra_queue at hx
  cases hfind : treeFind s.tree g o off with
  | none =>
    rw [hfind] at hx
    exact ⟨x, hx, rfl⟩
  | some r =>
    rw [hfind] at hx
    dsimp only at hx
    split_ifs at hx with hq
    · exact ⟨x, hx, rfl⟩
    · exact treeUpdate_mem_key (fun z =>
        { z with is_extra_queued := true, has_extra_data := true
                 extra_repeat_time := rt }) (fun z => rfl) hx

/-- Inversion of a Created ack_init: the guard passed, the key was fresh,
and the result state is the insertion (plus, possibly, an extra-repeat
queueing of the new record). -/
theorem ack_init_created_inv {cfg : QrConfig} {s : AckState}
    {g o off flags nbopg len qd objlen now : Nat} {s2 : AckState}
    (h : quicrq_datagram_ack_init cfg s g o off flags nbopg len qd objlen
      now = (.Created, s2)) :
    ¬ quicrq_datagram_check_horizon s g o off < 0 ∧
    treeFind s.tree g o off = none ∧
    ((cfg.extra_repeat_after_received_delayed = true ∧
        0 < cfg.extra_repeat_delay ∧ 20 < qd) →
      s2 = quicrq_datagram_ack_extra_queue
        { s with tree := (treeInsert s.tree
          (newAckRecord g o off flags nbopg len qd objlen now)) } g o off
        (u64add now cfg.extra_repeat_delay)) ∧
    (¬ (cfg.extra_repeat_after_received_delayed = true ∧
        0 < cfg.extra_repeat_delay ∧ 20 < qd) →
      s2 = { s with tree := (treeInsert s.tree
        (newAckRecord g o off flags nbopg len qd objlen now)) }) := by
  unfold quicrq_datagram_ack_init at h
  by_cases h1 : quicrq_datagram_check_horizon s g o off < 0
  · rw [if_pos h1] at h
    exact AckInitResult.noConfusion (congrArg Prod.fst h)
  · rw [if_neg h1] at h
    cases hfind : treeFind s.tree g o off with
    | some r =>
      rw [hfind] at h
      dsimp only at h
      exact AckInitResult.noConfusion (congrArg Prod.fst h)
    | none =>
      rw [hfind] at h
      dsimp only at h
      refine ⟨h1, rfl, ?_, ?_⟩
      · intro hcond
        rw [if_pos hcond] at h
        simp only [Prod.mk.injEq] at h
        exact h.2.symm
      · intro hcond
        rw [if_neg hcond] at h
        simp only [Prod.mk.injEq] at h
        exact h.2.symm

theorem horizonQuad_repeatTouch (cfg : QrConfig) (s : AckState)
    (g o off : Nat) (pe : Bool) (now : Nat) :
    horizonQuad (repeatTouch cfg s g o off pe now) = horizonQuad s := by
  unfold repeatTouch
  dsimp only
  split_ifs with hx
  · rw [horizonQuad_extraQueue]
    rfl
  · rfl

theorem repeatTouch_find_other {cfg : QrConfig} {s : AckState}
    {g o off g' o' off' : Nat} {pe : Bool} {now : Nat}
    (hne : (g', o', off') ≠ (g, o, off)) :
    treeFind (repeatTouch cfg s g o off pe now).tree g' o' off' =
      treeFind s.tree g' o' off' := by
  unfold repeatTouch
  dsimp only
  split_ifs with hx
  · rw [extraQueue_find_other hne,
      updateRec_find_other (setLastSent now) (fun z => rfl) hne,
      updateRec_find_other (setLastSent now) (fun z => rfl) hne]
  · rw [updateRec_find_other (setLastSent now) (fun z => rfl) hne,
      updateRec_find_other (setLastSent now) (fun z => rfl) hne]

theorem repeatTouch_find_self {cfg : QrConfig} {s : AckState}
    {g o off : Nat} {pe : Bool} {now : Nat} {r : DgAckRecord}
    (h : treeFind s.tree g o off = some r) :
    ∃ rC, treeFind (repeatTouch cfg s g o off pe now).tree g o off =
        some rC ∧
      rC.length = r.length ∧ rC.flags = r.flags ∧
      rC.object_length = r.object_length ∧
      rC.nack_received = r.nack_received ∧
      rC.queue_delay = r.queue_delay ∧ rC.start_time = r.start_time ∧
      rC.is_acked = r.is_acked ∧
      rC.nb_objects_previous_group = r.nb_objects_previous_group ∧
      ((pe = true ∧ 0 < cfg.extra_repeat_delay) →
        rC.is_extra_queued = true) := by
  unfold repeatTouch
  dsimp only
  have h1 : treeFind (updateRec (updateRec s g o off (setLastSent now)) g o
      off (setLastSent now)).tree g o off =
      some (setLastSent now (setLastSent now r)) := by
    rw [updateRec_find_self (setLastSent now) (fun z => rfl),
      updateRec_find_self (setLastSent now) (fun z => rfl), h]
    rfl
  split_ifs with hx
  · obtain ⟨rC, hfindC, hlen, hfl, hol, hna, hqd, hst, hex, hak, hnb⟩ :=
      extraQueue_find_self h1
    exact ⟨rC, hfindC, hlen, hfl, hol, hna, hqd, hst, hak, hnb,
      fun _ => hex⟩
  · exact ⟨setLastSent now (setLastSent now r), h1, rfl, rfl, rfl, rfl, rfl,
      rfl, rfl, rfl, fun hc => absurd hc hx⟩

theorem repeatTouch_mem_key {cfg : QrConfig} {s : AckState}
    {g o off : Nat} {pe : Bool} {now : Nat} {x : DgAckRecord}
    (hx : x ∈ (repeatTouch cfg s g o off pe now).tree) :
    ∃ y ∈ s.tree, recKey x = recKey y := by
  unfold repeatTouch at hx
  dsimp only at hx
  split_ifs at hx with hc
  · obtain ⟨y1, hy1, hk1⟩ := extraQueue_mem_key hx
    obtain ⟨y2, hy2, hk2⟩ :=
      treeUpdate_mem_key (setLastSent now) (fun z => rfl) hy1
    obtain ⟨y3, hy3, hk3⟩ :=
      treeUpdate_mem_key (setLastSent now) (fun z => rfl) hy2
    exact ⟨y3, hy3, by rw [hk1, hk2, hk3]⟩
  · obtain ⟨y2, hy2, hk2⟩ :=
      treeUpdate_mem_key (setLastSent now) (fun z => rfl) hx
    obtain ⟨y3, hy3, hk3⟩ :=
      treeUpdate_mem_key (setLastSent now) (fun z => rfl) hy2
    exact ⟨y3, hy3, by rw [hk2, hk3]⟩

/-- The Created path of ack_init, as a forward equation. -/
theorem ack_init_created_eq {cfg : QrConfig} {s : AckState}
    {g o off flags nbopg len qd objlen now : Nat}
    (hchk : ¬ quicrq_datagram_check_horizon s g o off < 0)
    (hfind : treeFind s.tree g o off = none) :
    quicrq_datagram_ack_init cfg s g o off flags nbopg len qd objlen now =
      (.Created,
        if cfg.extra_repeat_after_received_delayed = true ∧
            0 < cfg.extra_repeat_delay ∧ 20 < qd then
          quicrq_datagram_ack_extra_queue
            { s with tree := (treeInsert s.tree
              (newAckRecord g o off flags nbopg len qd objlen now)) } g o off
            (u64add now cfg.extra_repeat_delay)
        else
          { s with tree := (treeInsert s.tree
            (newAckRecord g o off flags nbopg len qd objlen now)) }) := by
  unfold quicrq_datagram_ack_init
  rw [if_neg hchk, hfind]

/-- Keys below the record under repeat (or in another object) are untouched
by the retransmission loop. -/
theorem repeatGo_preserves_lower {qmax pmax : Nat} {hdrLen : DgHeader → Nat}
    {cfg : QrConfig} {mid : Nat} {pe : Bool} {now : Nat} :
    ∀ fuel (s : AckState) (g o off : Nat) (data : List Nat)
      (acc : List QueuedDatagram) (out : List QueuedDatagram)
      (s' : AckState),
      off + data.length < 2 ^ 61 →
      repeatGo qmax pmax hdrLen cfg mid fuel s g o off data pe now acc =
        .ok (out, s') →
      ∀ g' o' off', ¬ (g' = g ∧ o' = o ∧ off ≤ off') →
        treeFind s'.tree g' o' off' = treeFind s.tree g' o' off' := by
  intro fuel
  induction fuel with
  | zero =>
    intro s g o off data acc out s' hsm h
    exact absurd h (by simp [repeatGo])
  | succ n ih =>
    intro s g o off data acc out s' hsm h g' o' off' hK
    have hKne : (g', o', off') ≠ (g, o, off) := by
      intro hc
      refine hK ⟨congrArg Prod.fst hc, congrArg (fun p => p.2.1) hc, ?_⟩
      rw [show off' = off from congrArg (fun p => p.2.2) hc]
    simp only [repeatGo] at h
    cases hfind : treeFind s.tree g o off with
    | none =>
      rw [hfind] at h
      exact absurd h (by simp)
    | some found =>
      rw [hfind] at h
      dsimp only at h
      by_cases hA : data.length = 0 ∧ found.flags ≠ 255
      · rw [if_pos hA] at h
        simp only [Except.ok.injEq, Prod.mk.injEq] at h
        rw [← h.2]
      · rw [if_neg hA] at h
        set hd := repeatHdr mid g o off found now with hhd
        set frag := repeatFrag qmax (hdrLen hd) data.length with hfrag
        by_cases hpm : pmax < hdrLen hd + frag
        · rw [if_pos hpm] at h
          exact absurd h (by simp)
        · rw [if_neg hpm] at h
          have htouch : treeFind (repeatTouch cfg s g o off pe now).tree
              g' o' off' = treeFind s.tree g' o' off' := by
            unfold repeatTouch
            dsimp only
            split_ifs with hx
            · rw [extraQueue_find_other hKne]
              rw [updateRec_find_other (setLastSent now) (fun z => rfl) hKne,
                updateRec_find_other (setLastSent now) (fun z => rfl) hKne]
            · rw [updateRec_find_other (setLastSent now) (fun z => rfl) hKne,
                updateRec_find_other (setLastSent now) (fun z => rfl) hKne]
          by_cases hsplit : frag < data.length
          · rw [if_pos hsplit] at h
            have hadd : u64add off frag = off + frag :=
              u64add_small (by unfold M64; omega)
            have hKne2 : (g', o', off') ≠ (g, o, u64add off frag) := by
              intro hc
              refine hK ⟨congrArg Prod.fst hc, congrArg (fun p => p.2.1) hc, ?_⟩
              have := congrArg (fun p => p.2.2) hc
              simp only at this
              omega
            cases hai : quicrq_datagram_ack_init cfg
                (repeatTouch cfg s g o off pe now) g o (u64add off frag)
                found.flags found.nb_objects_previous_group
                (data.drop frag).length found.queue_delay found.object_length
                found.start_time with
            | mk res s2 =>
              rw [hai] at h
              cases res with
              | Created =>
                dsimp only at h
                have hrec := ih _ g o (u64add off frag) (data.drop frag) _ _ _
                  (by rw [hadd]; simp; omega) h g' o' off'
                  (by
                    intro hc
                    refine hK ⟨hc.1, hc.2.1, ?_⟩
                    have := hc.2.2
                    rw [hadd] at this
                    omega)
                rw [hrec]
                rw [updateRec_find_other (setRecLen frag) (fun z => rfl) hKne,
                  updateRec_find_other (tailInherit found) (fun z => rfl)
                    hKne2]
                obtain ⟨hchk, hfnone, hpos, hneg⟩ := ack_init_created_inv hai
                by_cases hec : cfg.extra_repeat_after_received_delayed = true ∧
                    0 < cfg.extra_repeat_delay ∧ 20 < found.queue_delay
                · rw [hpos hec]
                  rw [extraQueue_find_other hKne2]
                  show treeFind (treeInsert _ _) g' o' off' = _
                  rw [treeFind_insert_other
                    (show recKey (newAckRecord g o (u64add off frag)
                        found.flags found.nb_objects_previous_group
                        (data.drop frag).length found.queue_delay
                        found.object_length found.start_time) ≠
                      (g', o', off') from fun hc => hKne2 hc.symm)]
                  exact htouch
                · rw [hneg hec]
                  show treeFind (treeInsert _ _) g' o' off' = _
                  rw [treeFind_insert_other
                    (show recKey (newAckRecord g o (u64add off frag)
                        found.flags found.nb_objects_previous_group
                        (data.drop frag).length found.queue_delay
                        found.object_length found.start_time) ≠
                      (g', o', off') from fun hc => hKne2 hc.symm)]
                  exact htouch
              | Duplicate =>
                dsimp only at h
                exact absurd h (by simp)
              | BelowHorizon =>
                dsimp only at h
                exact absurd h (by simp)
          · rw [if_neg hsplit] at h
            simp only [Except.ok.injEq, Prod.mk.injEq] at h
            rw [← h.2]
            exact htouch

theorem horizonQuad_fields {s s' : AckState}
    (h : horizonQuad s' = horizonQuad s) :
    s'.horizon_group_id = s.horizon_group_id ∧
    s'.horizon_object_id = s.horizon_object_id ∧
    s'.horizon_offset = s.horizon_offset ∧
    s'.horizon_is_last_fragment = s.horizon_is_last_fragment :=
  ⟨congrArg (fun q => q.1) h, congrArg (fun q => q.2.1) h,
    congrArg (fun q => q.2.2.1) h, congrArg (fun q => q.2.2.2) h⟩

theorem horizonOk_congr_quad {s s' : AckState}
    (h : horizonQuad s' = horizonQuad s) (hok : horizonOk s) :
    horizonOk s' := by
  obtain ⟨h1, h2, h3, h4⟩ := horizonQuad_fields h
  unfold horizonOk horizonKey at hok ⊢
  rw [h1, h2, h3]
  exact hok

theorem horizonKey_congr_quad {s s' : AckState}
    (h : horizonQuad s' = horizonQuad s) : horizonKey s' = horizonKey s := by
  obtain ⟨h1, h2, h3, h4⟩ := horizonQuad_fields h
  unfold horizonKey
  rw [h1, h2, h3]

/-- One turn of the repeat loop (last-sent refresh plus optional extra
queueing) preserves well-formedness and the horizon invariant. -/
theorem repeatTouch_wf_inv {cfg : QrConfig} {s : AckState} {g o off : Nat}
    {pe : Bool} {now : Nat} (hwf : ackWf s) (hinv : ackHorizonInv s) :
    ackWf (repeatTouch cfg s g o off pe now) ∧
      ackHorizonInv (repeatTouch cfg s g o off pe now) := by
  unfold repeatTouch
  dsimp only
  have hskel : (treeUpdate (treeUpdate s.tree g o off (setLastSent now)) g o
      off (setLastSent now)).map skel = s.tree.map skel := by
    rw [@treeUpdate_map_skel _ g o off (setLastSent now) (fun x => rfl),
      @treeUpdate_map_skel s.tree g o off (setLastSent now) (fun x => rfl)]
  have hbase := wf_inv_of_tree_skel hskel hwf hinv
  split_ifs with hx
  · exact extraQueue_wf_inv hbase.1 hbase.2
  · exact hbase

/-- Membership in an updated tree, split on whether the key matched. -/
theorem treeUpdate_mem_split {t : List DgAckRecord} {g o off : Nat}
    {f : DgAckRecord → DgAckRecord} {x : DgAckRecord}
    (hx : x ∈ treeUpdate t g o off f) :
    (∃ z ∈ t, recKey z = ((g : Nat), o, off) ∧ x = f z) ∨
    (∃ z ∈ t, recKey z ≠ ((g : Nat), o, off) ∧ x = z) := by
  unfold treeUpdate at hx
  obtain ⟨z, hz, hxz⟩ := List.mem_map.mp hx
  by_cases hk : z.group_id = g ∧ z.object_id = o ∧ z.object_offset = off
  · rw [if_pos hk] at hxz
    refine Or.inl ⟨z, hz, ?_, hxz.symm⟩
    unfold recKey
    rw [hk.1, hk.2.1, hk.2.2]
  · rw [if_neg hk] at hxz
    refine Or.inr ⟨z, hz, ?_, hxz.symm⟩
    intro hc
    exact hk ⟨congrArg (fun p => p.1) hc, congrArg (fun p => p.2.1) hc,
      congrArg (fun p => p.2.2) hc⟩

/-- Shrinking the length of the record at a key keeps the tree sorted and
non-overlapping. -/
theorem sortedNonoverlap_shrink {t : List DgAckRecord} {g o off L : Nat}
    (hs : sortedNonoverlap t)
    (hle : ∀ x ∈ t, recKey x = ((g : Nat), o, off) → L ≤ x.length) :
    sortedNonoverlap (treeUpdate t g o off (setRecLen L)) := by
  induction t with
  | nil => exact List.Pairwise.nil
  | cons x xs ih =>
    rw [treeUpdate_cons]
    obtain ⟨hhead, htail⟩ := List.pairwise_cons.mp hs
    refine List.pairwise_cons.mpr ⟨?_, ih htail
      (fun z hz hk => hle z (List.mem_cons_of_mem x hz) hk)⟩
    intro y hy
    rcases treeUpdate_mem_split hy with ⟨z, hz, hkz, hyz⟩ | ⟨z, hz, hkz, hyz⟩
    all_goals rw [hyz]
    · have hxz := hhead z hz
      by_cases hkx : recKey x = ((g : Nat), o, off)
      · exact absurd (hkx.trans hkz.symm) (keyLexLt_ne hxz.1)
      · rw [if_neg hkx]
        refine ⟨hxz.1, ?_⟩
        intro hsame
        have h2 := hxz.2 hsame
        show x.object_offset + x.length ≤ z.object_offset
        exact h2
    · have hxz := hhead z hz
      by_cases hkx : recKey x = ((g : Nat), o, off)
      · rw [if_pos hkx]
        have hLx := hle x (List.mem_cons_self x xs) hkx
        refine ⟨hxz.1, ?_⟩
        intro hsame
        have h2 := hxz.2 hsame
        show x.object_offset + L ≤ z.object_offset
        omega
      · rw [if_neg hkx]
        exact hxz

/-- Shrinking the length of the record at a key keeps all records small. -/
theorem smallAll_shrink {t : List DgAckRecord} {g o off L : Nat}
    (hsmall : ∀ x ∈ t, smallRec x)
    (hle : ∀ x ∈ t, recKey x = ((g : Nat), o, off) → L ≤ x.length) :
    ∀ x ∈ treeUpdate t g o off (setRecLen L), smallRec x := by
  intro x hx
  rcases treeUpdate_mem_split hx with ⟨z, hz, hkz, hyz⟩ | ⟨z, hz, hkz, hyz⟩
  all_goals rw [hyz]
  · have h1 := hsmall z hz
    have h2 := hle z hz hkz
    obtain ⟨a1, a2, a3, a4, a5⟩ := h1
    exact ⟨a1, a2, by show z.object_offset + L < 2 ^ 61; omega, a4, a5⟩
  · exact hsmall z hz

/-- Two updates at the same key fuse into one. -/
theorem treeUpdate_comp {t : List DgAckRecord} {g o off : Nat}
    {f f' : DgAckRecord → DgAckRecord} (hf : ∀ x, recKey (f x) = recKey x) :
    treeUpdate (treeUpdate t g o off f) g o off f' =
      treeUpdate t g o off (fun x => f' (f x)) := by
  unfold treeUpdate
  rw [List.map_map]
  refine List.map_congr_left ?_
  intro x hx
  dsimp only [Function.comp]
  by_cases hk : x.group_id = g ∧ x.object_id = o ∧ x.object_offset = off
  · rw [if_pos hk]
    have hkf : (f x).group_id = g ∧ (f x).object_id = o ∧
        (f x).object_offset = off := by
      refine ⟨?_, ?_, ?_⟩
      · rw [show (f x).group_id = x.group_id from
          congrArg (fun p => p.1) (hf x)]
        exact hk.1
      · rw [show (f x).object_id = x.object_id from
          congrArg (fun p => p.2.1) (hf x)]
        exact hk.2.1
      · rw [show (f x).object_offset = x.object_offset from
          congrArg (fun p => p.2.2) (hf x)]
        exact hk.2.2
    rw [if_pos hkf, if_pos hk]
  · rw [if_neg hk, if_neg hk, if_neg hk]

/-- The net tree of one split turn of the repeat loop: inserting the fresh
tail record, patching it in place and shrinking the original record equals
inserting the patched tail into the shrunk tree. -/
theorem repeat_tail_shape {t : List DgAckRecord} {g o off2 off L : Nat}
    {rN : DgAckRecord} {f2 : DgAckRecord → DgAckRecord}
    (hk2 : ∀ x, recKey (f2 x) = recKey x)
    (hrk : recKey rN = ((g : Nat), o, off2))
    (hne : off2 ≠ off)
    (hfresh : ∀ x ∈ t, recKey x ≠ ((g : Nat), o, off2)) :
    treeUpdate (treeUpdate (treeInsert t rN) g o off2 f2) g o off
      (setRecLen L) =
      treeInsert (treeUpdate t g o off (setRecLen L)) (f2 rN) := by
  have hg : rN.group_id = g := congrArg (fun p => p.1) hrk
  have ho : rN.object_id = o := congrArg (fun p => p.2.1) hrk
  have hof : rN.object_offset = off2 := congrArg (fun p => p.2.2) hrk
  have hfresh2 : ∀ x ∈ t, recKey x ≠ recKey rN := by
    intro x hx
    rw [hrk]
    exact hfresh x hx
  have h1 : treeUpdate (treeInsert t rN) g o off2 f2 =
      treeInsert t (f2 rN) := by
    rw [← hg, ← ho, ← hof]
    exact treeUpdate_insert_self hk2 hfresh2
  rw [h1]
  refine treeUpdate_insert_comm (fun x => rfl) ?_
  rw [hk2, hrk]
  intro hc
  exact hne (congrArg (fun p => p.2.2) hc)

/-- Main functional lemma of the retransmission loop: with enough fuel, a
record carrying the data at (g, o, off), no record of the same object at a
higher offset, and the acked range clear of the horizon, the loop succeeds;
the queued payloads concatenate back to the original data, the fragment
offsets chain from the starting offset, every queued header carries the
record's identification with the rounded queue-delay delta and fits the
queueable size, and every queued fragment leaves behind a tree record of
matching length inheriting object_length, flags and nack_received. -/
theorem repeatGoMain {qmax pmax : Nat} {hdrLen : DgHeader → Nat}
    {cfg : QrConfig} {mid : Nat} {pe : Bool} {now : Nat}
    {F OL NB QD ST : Nat} {N : Bool}
    (hH : ∀ hh, hdrLen hh < qmax) (hqp : qmax ≤ pmax)
    (hq61 : qmax < 2 ^ 61) :
    ∀ fuel (s : AckState) (g o off : Nat) (data : List Nat)
      (acc : List QueuedDatagram),
      data.length < fuel →
      off + data.length < 2 ^ 61 →
      (∃ r, treeFind s.tree g o off = some r ∧ r.flags = F ∧
        r.object_length = OL ∧ r.nack_received = N ∧
        r.nb_objects_previous_group = NB ∧ r.queue_delay = QD ∧
        r.start_time = ST ∧ r.length = data.length) →
      (∀ x ∈ s.tree, x.group_id = g → x.object_id = o →
        x.object_offset ≤ off) →
      (∀ d, d ≤ data.length →
        ¬ quicrq_datagram_check_horizon s g o (off + d) < 0) →
      ∃ out s',
        repeatGo qmax pmax hdrLen cfg mid fuel s g o off data pe now acc =
          .ok (acc.reverse ++ out, s') ∧
        (out.map QueuedDatagram.payload).flatten = data ∧
        offsetsChained off out ∧
        (∀ q ∈ out,
          q.header.media_id = mid ∧ q.header.group_id = g ∧
          q.header.object_id = o ∧ q.header.flags = F ∧
          q.header.object_length = OL ∧
          q.header.nb_objects_previous_group = NB ∧
          q.header.queue_delay = u64add QD (repeatDelayDelta now ST) ∧
          hdrLen q.header + q.payload.length ≤ qmax) ∧
        (∀ q ∈ out, ∃ rq,
          treeFind s'.tree g o q.header.object_offset = some rq ∧
          rq.length = q.payload.length ∧ rq.flags = F ∧
          rq.object_length = OL ∧ rq.nack_received = N ∧
          ((pe = true ∧ 0 < cfg.extra_repeat_delay) →
            rq.is_extra_queued = true)) ∧
        (ackWf s → ackHorizonInv s → ackWf s' ∧ ackHorizonInv s') := by
  intro fuel
  induction fuel with
  | zero =>
    intro s g o off data acc hfuel
    omega
  | succ n ih =>
    intro s g o off data acc hfuel hsm hrec habove hhz
    obtain ⟨r, hfind, hF, hOL, hN, hNB, hQD, hST, hlen⟩ := hrec
    simp only [repeatGo]
    rw [hfind]
    dsimp only
    by_cases hA : data.length = 0 ∧ r.flags ≠ 255
    · rw [if_pos hA]
      have hempty : data = [] := List.length_eq_zero.mp hA.1
      refine ⟨[], s, by rw [List.append_nil], by rw [hempty]; rfl, trivial,
        ?_, ?_, fun hwf hinv => ⟨hwf, hinv⟩⟩
      · intro q hq
        cases hq
      · intro q hq
        cases hq
    · rw [if_neg hA]
      set hd := repeatHdr mid g o off r now with hhd
      set frag := repeatFrag qmax (hdrLen hd) data.length with hfrag
      have hhd1 : hdrLen hd < qmax := hH hd
      have hfragEq : frag = if qmax < hdrLen hd + data.length
          then qmax - hdrLen hd else data.length := by
        rw [hfrag]
        unfold repeatFrag
        split_ifs with ht
        · exact wrapSub_small (le_of_lt hhd1) (by unfold M64; omega)
        · rfl
      have hfle : frag ≤ data.length := by
        rw [hfragEq]
        split_ifs with ht <;> omega
      have hfq : hdrLen hd + frag ≤ qmax := by
        rw [hfragEq]
        split_ifs with ht <;> omega
      have htake : (data.take frag).length = frag := by
        rw [List.length_take]
        exact Nat.min_eq_left hfle
      rw [if_neg (show ¬ pmax < hdrLen hd + frag by omega)]
      by_cases hsplit : frag < data.length
      · rw [if_pos hsplit]
        have hfrag1 : 1 ≤ frag := by
          rw [hfragEq] at hsplit ⊢
          split_ifs at hsplit ⊢ with ht <;> omega
        have hadd : u64add off frag = off + frag :=
          u64add_small (by unfold M64; omega)
        have hne12 : ((g : Nat), o, off) ≠ (g, o, u64add off frag) := by
          intro hc
          have := congrArg (fun p => p.2.2) hc
          simp only at this
          omega
        have hne21 : ((g : Nat), o, u64add off frag) ≠ (g, o, off) := by
          intro hc
          have := congrArg (fun p => p.2.2) hc
          simp only at this
          omega
        obtain ⟨rC, hfindC, hlenC, hflC, holC, hnaC, hqdC, hstC, hakC,
            hnbC, hexC⟩ :=
          @repeatTouch_find_self cfg s g o off pe now r hfind
        have hhqC : horizonQuad (repeatTouch cfg s g o off pe now) =
            horizonQuad s := horizonQuad_repeatTouch cfg s g o off pe now
        have hchk2 : ¬ quicrq_datagram_check_horizon
            (repeatTouch cfg s g o off pe now) g o (u64add off frag) < 0 := by
          rw [checkHorizon_congr hhqC, hadd]
          exact hhz frag (le_of_lt hsplit)
        have hfindnone : treeFind (repeatTouch cfg s g o off pe now).tree
            g o (u64add off frag) = none := by
          cases hfd : treeFind (repeatTouch cfg s g o off pe now).tree
              g o (u64add off frag) with
          | none => rfl
          | some x =>
            obtain ⟨hmem, hkey⟩ := treeFind_some_mem hfd
            obtain ⟨w, hw, hkw⟩ := repeatTouch_mem_key hmem
            have hkw2 : recKey w = ((g : Nat), o, u64add off frag) := by
              rw [← hkw, hkey]
            have h1 : w.group_id = g := congrArg (fun p => p.1) hkw2
            have h2 : w.object_id = o := congrArg (fun p => p.2.1) hkw2
            have h3 : w.object_offset = u64add off frag :=
              congrArg (fun p => p.2.2) hkw2
            have := habove w hw h1 h2
            rw [h3, hadd] at this
            omega
        obtain ⟨sD, hai, hfindD1, ⟨rD, hfindD2, hrDlen, hrDfl, hrDol, hrDqd,
            hrDst, hrDnb⟩, hmemD, hhqD,
            rT, hs4eq, hrTg, hrTo, hrToff, hrTlen, hrTol, hrTnb⟩ :
            ∃ sD,
              quicrq_datagram_ack_init cfg
                (repeatTouch cfg s g o off pe now) g o (u64add off frag)
                r.flags r.nb_objects_previous_group
                (data.drop frag).length r.queue_delay r.object_length
                r.start_time = (.Created, sD) ∧
              treeFind sD.tree g o off = some rC ∧
              (∃ rD, treeFind sD.tree g o (u64add off frag) = some rD ∧
                rD.length = (data.drop frag).length ∧ rD.flags = r.flags ∧
                rD.object_length = r.object_length ∧
                rD.queue_delay = r.queue_delay ∧
                rD.start_time = r.start_time ∧
                rD.nb_objects_previous_group =
                  r.nb_objects_previous_group) ∧
              (∀ y ∈ sD.tree, (∃ w ∈ s.tree, recKey y = recKey w) ∨
                recKey y = ((g : Nat), o, u64add off frag)) ∧
              horizonQuad sD = horizonQuad s ∧
              (∃ rT, treeUpdate (treeUpdate sD.tree g o (u64add off frag)
                  (tailInherit r)) g o off (setRecLen frag) =
                  treeInsert (treeUpdate
                    (repeatTouch cfg s g o off pe now).tree g o off
                    (setRecLen frag)) rT ∧
                rT.group_id = g ∧ rT.object_id = o ∧
                rT.object_offset = u64add off frag ∧
                rT.length = (data.drop frag).length ∧
                rT.object_length = r.object_length ∧
                rT.nb_objects_previous_group =
                  r.nb_objects_previous_group) := by
          rw [ack_init_created_eq hchk2 hfindnone]
          have hInsSelf : treeFind (treeInsert
              (repeatTouch cfg s g o off pe now).tree
              (newAckRecord g o (u64add off frag) r.flags
                r.nb_objects_previous_group (data.drop frag).length
                r.queue_delay r.object_length r.start_time)) g o
              (u64add off frag) =
              some (newAckRecord g o (u64add off frag) r.flags
                r.nb_objects_previous_group (data.drop frag).length
                r.queue_delay r.object_length r.start_time) :=
            treeFind_insert_self hfindnone
          have hInsOther : treeFind (treeInsert
              (repeatTouch cfg s g o off pe now).tree
              (newAckRecord g o (u64add off frag) r.flags
                r.nb_objects_previous_group (data.drop frag).length
                r.queue_delay r.object_length r.start_time)) g o off =
              some rC := by
            rw [treeFind_insert_other
              (show recKey (newAckRecord g o (u64add off frag) r.flags
                  r.nb_objects_previous_group (data.drop frag).length
                  r.queue_delay r.object_length r.start_time) ≠
                ((g : Nat), o, off) from hne21)]
            exact hfindC
          have hInsMem : ∀ y ∈ treeInsert
              (repeatTouch cfg s g o off pe now).tree
              (newAckRecord g o (u64add off frag) r.flags
                r.nb_objects_previous_group (data.drop frag).length
                r.queue_delay r.object_length r.start_time),
              (∃ w ∈ s.tree, recKey y = recKey w) ∨
                recKey y = ((g : Nat), o, u64add off frag) := by
            intro y hy
            rcases treeInsert_mem hy with h1 | h1
            · obtain ⟨w, hw, hkw⟩ := repeatTouch_mem_key h1
              exact Or.inl ⟨w, hw, hkw⟩
            · right
              rw [h1]
              rfl
          have hInsSelfS : treeFind
              ({ repeatTouch cfg s g o off pe now with
                  tree := (treeInsert (repeatTouch cfg s g o off pe now).tree
                    (newAckRecord g o (u64add off frag) r.flags
                      r.nb_objects_previous_group (data.drop frag).length
                      r.queue_delay r.object_length r.start_time)) } :
                AckState).tree g o (u64add off frag) =
              some (newAckRecord g o (u64add off frag) r.flags
                r.nb_objects_previous_group (data.drop frag).length
                r.queue_delay r.object_length r.start_time) := hInsSelf
          have hkeysA : ∀ x ∈ (repeatTouch cfg s g o off pe now).tree,
              recKey x ≠ ((g : Nat), o, u64add off frag) :=
            treeFind_eq_none_iff.mp hfindnone
          have hneOff : u64add off frag ≠ off := by
            rw [hadd]
            omega
          by_cases hec : cfg.extra_repeat_after_received_delayed = true ∧
              0 < cfg.extra_repeat_delay ∧ 20 < r.queue_delay
          · rw [if_pos hec]
            refine ⟨_, rfl, ?_, ?_, ?_, ?_, ?_⟩
            · rw [extraQueue_find_other hne12]
              exact hInsOther
            · obtain ⟨rD, hfD, hl, hf, ho2, hna2, hq2, hs2, hx2, ha2, hn2⟩ :=
                extraQueue_find_self hInsSelfS
              exact ⟨rD, hfD, hl, hf, ho2, hq2, hs2, hn2⟩
            · intro y hy
              obtain ⟨z, hz, hkz⟩ := extraQueue_mem_key hy
              rcases hInsMem z hz with ⟨w, hw, hkw⟩ | h1
              · exact Or.inl ⟨w, hw, by rw [hkz, hkw]⟩
              · exact Or.inr (by rw [hkz, h1])
            · rw [horizonQuad_extraQueue]
              exact hhqC
            · have hsDtree : (quicrq_datagram_ack_extra_queue
                  { repeatTouch cfg s g o off pe now with
                      tree := (treeInsert
                        (repeatTouch cfg s g o off pe now).tree
                        (newAckRecord g o (u64add off frag) r.flags
                          r.nb_objects_previous_group
                          (data.drop frag).length r.queue_delay
                          r.object_length r.start_time)) } g o
                  (u64add off frag)
                  (u64add r.start_time cfg.extra_repeat_delay)).tree =
                  treeUpdate (treeInsert
                    (repeatTouch cfg s g o off pe now).tree
                    (newAckRecord g o (u64add off frag) r.flags
                      r.nb_objects_previous_group (data.drop frag).length
                      r.queue_delay r.object_length r.start_time)) g o
                    (u64add off frag) (fun x =>
                      { x with is_extra_queued := true
                               has_extra_data := true
                               extra_repeat_time :=
                                 u64add r.start_time cfg.extra_repeat_delay }) := by
                unfold quicrq_datagram_ack_extra_queue
                rw [hInsSelfS]
                dsimp only
                rw [if_neg (show ¬ (newAckRecord g o (u64add off frag)
                    r.flags r.nb_objects_previous_group
                    (data.drop frag).length r.queue_delay r.object_length
                    r.start_time).is_extra_queued = true from
                  Bool.false_ne_true)]
              refine ⟨tailInherit r
                  { newAckRecord g o (u64add off frag) r.flags
                      r.nb_objects_previous_group (data.drop frag).length
                      r.queue_delay r.object_length r.start_time with
                    is_extra_queued := true, has_extra_data := true
                    extra_repeat_time := u64add r.start_time cfg.extra_repeat_delay },
                ?_, rfl, rfl, rfl, rfl, rfl, rfl⟩
              show treeUpdate (treeUpdate (quicrq_datagram_ack_extra_queue
                  { repeatTouch cfg s g o off pe now with
                      tree := (treeInsert
                        (repeatTouch cfg s g o off pe now).tree
                        (newAckRecord g o (u64add off frag) r.flags
                          r.nb_objects_previous_group
                          (data.drop frag).length r.queue_delay
                          r.object_length r.start_time)) } g o
                  (u64add off frag)
                  (u64add r.start_time cfg.extra_repeat_delay)).tree g o
                  (u64add off frag) (tailInherit r)) g o off
                  (setRecLen frag) = _
              rw [hsDtree, @treeUpdate_comp _ g o (u64add off frag)
                (fun x =>
                  { x with is_extra_queued := true, has_extra_data := true
                           extra_repeat_time :=
                             u64add r.start_time cfg.extra_repeat_delay })
                (tailInherit r) (fun x => rfl)]
              exact repeat_tail_shape (fun x => rfl) rfl hneOff hkeysA
          · rw [if_neg hec]
            refine ⟨_, rfl, hInsOther, ⟨_, hInsSelf, rfl, rfl, rfl, rfl,
              rfl, rfl⟩, hInsMem, hhqC,
              tailInherit r (newAckRecord g o (u64add off frag) r.flags
                r.nb_objects_previous_group (data.drop frag).length
                r.queue_delay r.object_length r.start_time),
              ?_, rfl, rfl, rfl, rfl, rfl, rfl⟩
            exact repeat_tail_shape (fun x => rfl) rfl hneOff hkeysA
        rw [hai]
        dsimp only
        have hfind4 : treeFind (updateRec (updateRec sD g o
            (u64add off frag) (tailInherit r)) g o off
            (setRecLen frag)).tree g o (u64add off frag) =
            some (tailInherit r rD) := by
          rw [updateRec_find_other (setRecLen frag) (fun z => rfl) hne21,
            updateRec_find_self (tailInherit r) (fun z => rfl), hfindD2]
          rfl
        have hfind4a : treeFind (updateRec (updateRec sD g o
            (u64add off frag) (tailInherit r)) g o off
            (setRecLen frag)).tree g o off = some (setRecLen frag rC) := by
          rw [updateRec_find_self (setRecLen frag) (fun z => rfl),
            updateRec_find_other (tailInherit r) (fun z => rfl) hne12,
            hfindD1]
          rfl
        have hhq4 : horizonQuad (updateRec (updateRec sD g o
            (u64add off frag) (tailInherit r)) g o off
            (setRecLen frag)) = horizonQuad s := by
          rw [horizonQuad_updateRec, horizonQuad_updateRec]
          exact hhqD
        have hdrop : (data.drop frag).length = data.length - frag :=
          List.length_drop frag data
        obtain ⟨out', s', hrun, hjoin, hchain, hhdrs, hrecs, hwfpres⟩ :=
          ih (updateRec (updateRec sD g o (u64add off frag)
              (tailInherit r)) g o off (setRecLen frag)) g o
            (u64add off frag) (data.drop frag)
            ({ header := hd, payload := data.take frag } :: acc)
            (by omega)
            (by rw [hadd]; omega)
            ⟨tailInherit r rD, hfind4, hrDfl.trans hF, hOL, hN,
              hrDnb.trans hNB, hrDqd.trans hQD, hrDst.trans hST, hrDlen⟩
            (by
              intro x hx h1 h2
              obtain ⟨x1, hx1, hk1⟩ := treeUpdate_mem_key (setRecLen frag)
                (fun z => rfl) hx
              obtain ⟨y, hy, hk2⟩ := treeUpdate_mem_key (tailInherit r)
                (fun z => rfl) hx1
              have hky : recKey x = recKey y := by rw [hk1, hk2]
              rcases hmemD y hy with ⟨w, hw, hkw⟩ | hk3
              · have hkxw : recKey x = recKey w := by rw [hky, hkw]
                have e1 : x.group_id = w.group_id :=
                  congrArg (fun p => p.1) hkxw
                have e2 : x.object_id = w.object_id :=
                  congrArg (fun p => p.2.1) hkxw
                have e3 : x.object_offset = w.object_offset :=
                  congrArg (fun p => p.2.2) hkxw
                have := habove w hw (by rw [← e1, h1]) (by rw [← e2, h2])
                rw [hadd]
                omega
              · have : x.object_offset = u64add off frag :=
                  congrArg (fun p => p.2.2) (hky.trans hk3)
                omega)
            (by
              intro d hd2
              rw [checkHorizon_congr hhq4, hadd]
              have : off + frag + d = off + (frag + d) := by omega
              rw [this]
              exact hhz (frag + d) (by omega))
        refine ⟨{ header := hd, payload := data.take frag } :: out', s',
          ?_, ?_, ?_, ?_, ?_, ?_⟩
        · rw [hrun, List.reverse_cons, List.append_assoc]
          rfl
        · simp only [List.map_cons, List.flatten_cons]
          rw [hjoin]
          exact List.take_append_drop frag data
        · refine ⟨by rw [hhd]; rfl, ?_⟩
          show offsetsChained (off + (data.take frag).length) out'
          rw [htake, ← hadd]
          exact hchain
        · intro q hq
          rcases List.mem_cons.mp hq with rfl | hq'
          · refine ⟨by rw [hhd]; rfl, by rw [hhd]; rfl, by rw [hhd]; rfl,
              ?_, ?_, ?_, ?_, ?_⟩
            · show hd.flags = F
              rw [hhd]
              exact hF
            · show hd.object_length = OL
              rw [hhd]
              exact hOL
            · show hd.nb_objects_previous_group = NB
              rw [hhd]
              exact hNB
            · show hd.queue_delay = u64add QD (repeatDelayDelta now ST)
              rw [hhd]
              show u64add r.queue_delay (repeatDelayDelta now r.start_time) =
                u64add QD (repeatDelayDelta now ST)
              rw [hQD, hST]
            · show hdrLen hd + (data.take frag).length ≤ qmax
              rw [htake]
              exact hfq
          · exact hhdrs q hq'
        · intro q hq
          rcases List.mem_cons.mp hq with rfl | hq'
          · have hpres := repeatGo_preserves_lower n _ g o (u64add off frag)
              (data.drop frag) _ _ s' (by rw [hadd]; omega) hrun g o off
              (by
                intro hc
                have := hc.2.2
                rw [hadd] at this
                omega)
            refine ⟨setRecLen frag rC, ?_, ?_, ?_, ?_, ?_, ?_⟩
            · show treeFind s'.tree g o hd.object_offset = _
              have hoffhd : hd.object_offset = off := by rw [hhd]; rfl
              rw [hoffhd, hpres]
              exact hfind4a
            · show frag = (data.take frag).length
              exact htake.symm
            · show rC.flags = F
              rw [hflC]
              exact hF
            · show rC.object_length = OL
              rw [holC]
              exact hOL
            · show rC.nack_received = N
              rw [hnaC]
              exact hN
            · intro hx
              show rC.is_extra_queued = true
              exact hexC hx
          · exact hrecs q hq'
        · intro hwf hinv
          have hwfC : ackWf (repeatTouch cfg s g o off pe now) ∧
              ackHorizonInv (repeatTouch cfg s g o off pe now) :=
            repeatTouch_wf_inv hwf hinv
          have hsortC := hwfC.1.1
          have hsmallC := hwfC.1.2.1
          have hrCmem := (treeFind_some_mem hfindC).1
          have hrCkey := (treeFind_some_mem hfindC).2
          have hrmem := (treeFind_some_mem hfind).1
          have hrkey := (treeFind_some_mem hfind).2
          obtain ⟨hb1, hb2, hb3, hb4, hb5⟩ := hwf.2.1 r hrmem
          have hrg : r.group_id = g := congrArg (fun p => p.1) hrkey
          have hro : r.object_id = o := congrArg (fun p => p.2.1) hrkey
          have hg61 : g < 2 ^ 61 := by rw [← hrg]; exact hb1
          have ho61 : o < 2 ^ 61 := by rw [← hro]; exact hb2
          have hrCg : rC.group_id = g := congrArg (fun p => p.1) hrCkey
          have hrCo : rC.object_id = o := congrArg (fun p => p.2.1) hrCkey
          have hrCoff : rC.object_offset = off :=
            congrArg (fun p => p.2.2) hrCkey
          have hmatch : ∀ z ∈ (repeatTouch cfg s g o off pe now).tree,
              recKey z = ((g : Nat), o, off) → z = rC := by
            intro z hz hk
            have h1 := treeFind_of_mem_sorted hsortC hz
            have e1 : z.group_id = g := congrArg (fun p => p.1) hk
            have e2 : z.object_id = o := congrArg (fun p => p.2.1) hk
            have e3 : z.object_offset = off := congrArg (fun p => p.2.2) hk
            rw [e1, e2, e3] at h1
            exact Option.some.inj (h1.symm.trans hfindC)
          have hle2 : ∀ z ∈ (repeatTouch cfg s g o off pe now).tree,
              recKey z = ((g : Nat), o, off) → frag ≤ z.length := by
            intro z hz hk
            rw [hmatch z hz hk, hlenC, hlen]
            omega
          have hsortTS := sortedNonoverlap_shrink hsortC hle2
          have hsmallTS := smallAll_shrink hsmallC hle2
          have hrTkey : recKey rT = ((g : Nat), o, u64add off frag) := by
            unfold recKey
            rw [hrTg, hrTo, hrToff]
          have hsmallrT : smallRec rT := by
            refine ⟨by rw [hrTg]; exact hg61, by rw [hrTo]; exact ho61,
              ?_, by rw [hrTol]; exact hb4, by rw [hrTnb]; exact hb5⟩
            rw [hrToff, hrTlen, hadd, hdrop]
            omega
          have hkeysA2 : ∀ x ∈ (repeatTouch cfg s g o off pe now).tree,
              recKey x ≠ ((g : Nat), o, u64add off frag) :=
            treeFind_eq_none_iff.mp hfindnone
          have hcompat : ∀ x ∈ treeUpdate
              (repeatTouch cfg s g o off pe now).tree g o off
              (setRecLen frag),
              (keyLexLt (recKey x) (recKey rT) →
                (x.group_id = rT.group_id ∧ x.object_id = rT.object_id →
                  x.object_offset + x.length ≤ rT.object_offset)) ∧
              (keyLexLt (recKey rT) (recKey x) →
                (rT.group_id = x.group_id ∧ rT.object_id = x.object_id →
                  rT.object_offset + rT.length ≤ x.object_offset)) := by
            intro x hx
            rcases treeUpdate_mem_split hx with ⟨z, hz, hkz, hxz⟩ |
              ⟨z, hz, hkz, hxz⟩
            · have hzrC := hmatch z hz hkz
              constructor
              · intro hlt hsame
                rw [hxz, hzrC]
                show rC.object_offset + frag ≤ rT.object_offset
                rw [hrToff, hadd]
                omega
              · intro hlt
                rw [hxz, hzrC] at hlt
                have hxk : recKey (setRecLen frag rC) =
                    ((g : Nat), o, off) := by
                  show (rC.group_id, rC.object_id, rC.object_offset) = _
                  rw [hrCg, hrCo, hrCoff]
                rw [hxk, hrTkey] at hlt
                have h2 := keyLexLt_same_lt hlt
                rw [hadd] at h2
                exact absurd h2 (by omega)
            · have hzne : recKey z ≠ recKey rC := by
                rw [hrCkey]
                exact hkz
              constructor
              · intro hlt hsame
                rw [hxz] at hlt hsame ⊢
                have hzg : z.group_id = g := by rw [hsame.1, hrTg]
                have hzo : z.object_id = o := by rw [hsame.2, hrTo]
                have hzk : recKey z = ((g : Nat), o, z.object_offset) := by
                  show (z.group_id, z.object_id, z.object_offset) = _
                  rw [hzg, hzo]
                rcases keyLexLt_trichot (recKey z) (recKey rC) with
                  h1 | h1 | h1
                · have hov := (sorted_rel_of_mem hsortC hz hrCmem h1).2
                    ⟨by rw [hzg, hrCg], by rw [hzo, hrCo]⟩
                  rw [hrToff, hadd]
                  omega
                · exact absurd h1 hzne
                · have hov := (sorted_rel_of_mem hsortC hrCmem hz h1).2
                    ⟨by rw [hrCg, hzg], by rw [hrCo, hzo]⟩
                  rw [hzk, hrTkey] at hlt
                  have h2 := keyLexLt_same_lt hlt
                  rw [hadd] at h2
                  rw [hlenC, hlen] at hov
                  exact absurd h2 (by omega)
              · intro hlt hsame
                rw [hxz] at hlt hsame ⊢
                have hzg : z.group_id = g := by rw [← hsame.1, hrTg]
                have hzo : z.object_id = o := by rw [← hsame.2, hrTo]
                have hzk : recKey z = ((g : Nat), o, z.object_offset) := by
                  show (z.group_id, z.object_id, z.object_offset) = _
                  rw [hzg, hzo]
                rw [hzk, hrTkey] at hlt
                have h2 := keyLexLt_same_lt hlt
                rw [hadd] at h2
                rcases keyLexLt_trichot (recKey z) (recKey rC) with
                  h1 | h1 | h1
                · have hov := (sorted_rel_of_mem hsortC hz hrCmem h1).2
                    ⟨by rw [hzg, hrCg], by rw [hzo, hrCo]⟩
                  exact absurd h2 (by omega)
                · exact absurd h1 hzne
                · have hov := (sorted_rel_of_mem hsortC hrCmem hz h1).2
                    ⟨by rw [hrCg, hzg], by rw [hrCo, hzo]⟩
                  rw [hrToff, hrTlen, hadd, hdrop]
                  rw [hlenC, hlen] at hov
                  omega
          have hneT : ∀ x ∈ treeUpdate
              (repeatTouch cfg s g o off pe now).tree g o off
              (setRecLen frag), recKey x ≠ recKey rT := by
            intro x hx
            obtain ⟨y, hy, hk⟩ := treeUpdate_mem_key (setRecLen frag)
              (fun z => rfl) hx
            rw [hk, hrTkey]
            exact hkeysA2 y hy
          have hsort4 := sortedNonoverlap_insert hsortTS hsmallTS hsmallrT
            hcompat hneT
          have hsmall4 : ∀ x ∈ treeInsert (treeUpdate
              (repeatTouch cfg s g o off pe now).tree g o off
              (setRecLen frag)) rT, smallRec x := by
            intro x hx
            rcases treeInsert_mem hx with h1 | h1
            · exact hsmallTS x h1
            · rw [h1]
              exact hsmallrT
          have hhkC : horizonKey (repeatTouch cfg s g o off pe now) =
              horizonKey s := horizonKey_congr_quad hhqC
          have hhk4 : horizonKey (updateRec (updateRec sD g o
              (u64add off frag) (tailInherit r)) g o off
              (setRecLen frag)) = horizonKey s :=
            horizonKey_congr_quad hhq4
          have hwf4 : ackWf (updateRec (updateRec sD g o (u64add off frag)
              (tailInherit r)) g o off (setRecLen frag)) := by
            refine ⟨?_, ?_, ?_⟩
            · show sortedNonoverlap (treeUpdate (treeUpdate sD.tree g o
                (u64add off frag) (tailInherit r)) g o off (setRecLen frag))
              rw [hs4eq]
              exact hsort4
            · intro x hx
              have hx2 : x ∈ treeUpdate (treeUpdate sD.tree g o
                  (u64add off frag) (tailInherit r)) g o off
                  (setRecLen frag) := hx
              rw [hs4eq] at hx2
              exact hsmall4 x hx2
            · exact horizonOk_congr_quad hhq4 hwf.2.2
          have hinv4 : ackHorizonInv (updateRec (updateRec sD g o
              (u64add off frag) (tailInherit r)) g o off
              (setRecLen frag)) := by
            intro hneH x hx
            rw [hhk4] at hneH ⊢
            have hx2 : x ∈ treeUpdate (treeUpdate sD.tree g o
                (u64add off frag) (tailInherit r)) g o off
                (setRecLen frag) := hx
            rw [hs4eq] at hx2
            rcases treeInsert_mem hx2 with h1 | h1
            · obtain ⟨y, hy, hk⟩ := treeUpdate_mem_key (setRecLen frag)
                (fun z => rfl) h1
              rw [hk]
              have hinvC := hwfC.2
                (by rw [hhkC]; exact hneH) y hy
              rw [hhkC] at hinvC
              exact hinvC
            · rw [h1, hrTkey]
              have hokC := hwfC.1.2.2
              have hhsm : (repeatTouch cfg s g o off pe
                    now).horizon_group_id < 2 ^ 62 ∧
                  (repeatTouch cfg s g o off pe now).horizon_object_id <
                    2 ^ 62 ∧
                  (repeatTouch cfg s g o off pe now).horizon_offset <
                    2 ^ 62 := by
                rcases hokC with h2 | h2
                · exact absurd (hhkC.symm.trans h2) hneH
                · exact h2
              have hniff := checkHorizon_neg_iff hhsm
                (⟨by omega, by omega, by rw [hadd]; omega⟩ :
                  g < 2 ^ 62 ∧ o < 2 ^ 62 ∧ u64add off frag < 2 ^ 62)
              have hnlt : ¬ keyLexLt ((g : Nat), o, u64add off frag)
                  (horizonKey (repeatTouch cfg s g o off pe now)) :=
                fun hlt => hchk2 (hniff.mpr hlt)
              rw [hhkC] at hnlt
              rcases keyLexLt_trichot (horizonKey s)
                  ((g : Nat), o, u64add off frag) with h2 | h2 | h2
              · exact Or.inl h2
              · exact Or.inr h2
              · exact absurd h2 hnlt
          exact hwfpres hwf4 hinv4
      · rw [if_neg hsplit]
        have hfragval : frag = data.length := by
          rw [hfragEq] at hsplit ⊢
          split_ifs at hsplit ⊢ with ht <;> omega
        obtain ⟨rC, hfindC, hlenC, hflC, holC, hnaC, hqdC, hstC, hakC,
            hnbC, hexC⟩ :=
          @repeatTouch_find_self cfg s g o off pe now r hfind
        refine ⟨[{ header := hd, payload := data.take frag }],
          repeatTouch cfg s g o off pe now,
          by rw [List.reverse_cons], ?_, ⟨by rw [hhd]; rfl, trivial⟩,
          ?_, ?_, fun hwf hinv => repeatTouch_wf_inv hwf hinv⟩
        · simp only [List.map_cons, List.map_nil, List.flatten_cons,
            List.flatten_nil]
          rw [List.append_nil, hfragval]
          exact List.take_length data
        · intro q hq
          rcases List.mem_cons.mp hq with rfl | hq'
          · refine ⟨by rw [hhd]; rfl, by rw [hhd]; rfl, by rw [hhd]; rfl,
              ?_, ?_, ?_, ?_, ?_⟩
            · show hd.flags = F
              rw [hhd]
              exact hF
            · show hd.object_length = OL
              rw [hhd]
              exact hOL
            · show hd.nb_objects_previous_group = NB
              rw [hhd]
              exact hNB
            · show hd.queue_delay = u64add QD (repeatDelayDelta now ST)
              rw [hhd]
              show u64add r.queue_delay (repeatDelayDelta now r.start_time) =
                u64add QD (repeatDelayDelta now ST)
              rw [hQD, hST]
            · show hdrLen hd + (data.take frag).length ≤ qmax
              rw [htake]
              exact hfq
          · cases hq'
        · intro q hq
          rcases List.mem_cons.mp hq with rfl | hq'
          · refine ⟨rC, ?_, ?_, ?_, ?_, ?_, ?_⟩
            · show treeFind _ g o hd.object_offset = _
              have hoffhd : hd.object_offset = off := by rw [hhd]; rfl
              rw [hoffhd]
              exact hfindC
            · show rC.length = (data.take frag).length
              rw [htake, hlenC, hlen, hfragval]
            · show rC.flags = F
              rw [hflC]
              exact hF
            · show rC.object_length = OL
              rw [holC]
              exact hOL
            · show rC.nack_received = N
              rw [hnaC]
              exact hN
            · exact hexC
          · cases hq'

/-- Lookup after marking nack_received on the record at a key. -/
theorem lost_mark_find {s : AckState} {g o off : Nat} {r : DgAckRecord}
    (hfind : treeFind s.tree g o off = some r) :
    treeFind (updateRec s g o off (fun x =>
      { x with nack_received := true })).tree g o off =
      some { r with nack_received := true } := by
  rw [updateRec_find_self (fun x => { x with nack_received := true })
    (fun z => rfl), hfind]
  rfl

/-! Claim theorems. -/

/-- C1 (code bug): in the call quicrq_datagram_handle_ack(5,7,10,90) on
cexStateC1 the horizon walk is triggered, advances over the fragment at the
horizon, and then also advances over the acked record (6,3,0) into the next
group — setting the horizon to (6,3,100) and emptying the tree — even
though that record's object_id is 3, so none of the spec's four advance
conditions holds for it (the code omits the object_id == 0 test that both
the spec and the code's own comment require for a group transition). -/
theorem C1_handle_ack_advances_without_object_id_zero :
    horizonOf (quicrq_datagram_handle_ack cexStateC1 5 7 10 90) =
      some (6, 3, 100) ∧
    treeKeysOf (quicrq_datagram_handle_ack cexStateC1 5 7 10 90) = some [] ∧
    ¬ specHorizonAdvanceCond 5 7 100 true (mkRec 6 3 0 100 100 8 true) := by
  decide

/-- C10 (code bug): acking 20 bytes at (0,0,0) when the tree's only record
is 10 bytes long makes the marking walk of quicrq_datagram_handle_ack step
past the last record: picosplay_next returns NULL,
quicrq_datagram_ack_node_value maps it to NULL, and the code dereferences
it (found->group_id, src/lib/quicrq.c:744) instead of terminating. -/
theorem C10_handle_ack_walk_null_deref :
    quicrq_datagram_handle_ack cexStateC10 0 0 0 20 = .error .nullDeref := by
  decide

/-- C2 counterexample: after the very first ack_init on a fresh context the
tree holds the record (0,0,0) while the horizon is still the all-ones
sentinel, so the record is lexicographically strictly below the horizon —
the claimed invariant is false before the horizon is initialized. -/
theorem C2_cex_first_record_below_sentinel_horizon :
    stateAfterFirstInit.tree.map recKey = [(0, 0, 0)] ∧
    horizonKey stateAfterFirstInit = (U64MAX, U64MAX, U64MAX) ∧
    keyLexLt (0, 0, 0) (horizonKey stateAfterFirstInit) := by decide

/-- C3 counterexample: the key (0,0,0) is lexicographically strictly below
the fresh horizon (2^64-1, 2^64-1, 2^64-1), yet ack_init inserts a record
and reports Created, with no below-horizon event counted: the code's
check_horizon is a wrap-around signed comparison, not the lexicographic
order, and it treats the uninitialized horizon as below everything. -/
theorem C3_cex_lex_below_sentinel_is_created :
    keyLexLt (0, 0, 0) (horizonKey quicrq_datagram_ack_ctx_init) ∧
    (quicrq_datagram_ack_init cfgOff quicrq_datagram_ack_ctx_init
      0 0 0 0 0 10 0 100 1000).1 = .Created ∧
    stateAfterFirstInit.tree ≠ [] ∧
    stateAfterFirstInit.nb_horizon_events = 0 := by decide

/-- C4 counterexample: the record (1,2,3) exists and is not acked, but its
extra repeat is queued and its last transmission (5000) is newer than
sent_time + 1000 = 2000, so quicrq_datagram_handle_lost ignores the NACK:
no nack_received flag is set and nothing is queued, contrary to the
claim's "whenever a record with the given key exists and is not yet
acked". -/
theorem C4_cex_nack_ignored_after_fresh_send :
    treeFind cexStateC4.tree 1 2 3 = some cexRecC4 ∧
    cexRecC4.is_acked = false ∧
    quicrq_datagram_handle_lost 30 1000 (fun _ => 10) cfgOff 4 cexStateC4
      1 2 3 1000 (List.range 10) 7000 = .ok ([], cexStateC4) ∧
    cexRecC4.nack_received = false := by decide

/-- C6 counterexample: repeating cexRecC6 (start_time 0, stored queue_delay
5) at now = 600 queues a datagram whose header carries queue_delay 6 =
5 + (600 + 500)/1000, while the claim's formula demands
5 + 600/1000 = 5: the code rounds to the nearest millisecond by adding
500 before dividing. -/
theorem C6_cex_delta_is_rounded :
    queuedDelays (quicrq_datagram_handle_repeat 30 1000 (fun _ => 10) cfgOff 4
      cexStateC6 2 3 0 (List.range 10) false 600) = some [6] ∧
    cexRecC6.queue_delay + (600 - 0) / 1000 = 5 ∧ (6 : Nat) ≠ 5 := by decide

/-- C8 counterexample: a rush-mode substream in state warp_header with
running counter 0 accepts an OBJECT_HEADER whose object_id is 7: the code
only tests the substream's counter (current_object_id != 0) and never
compares the header's object_id with 0, so the claim's "the header's
object_id must be strictly 0" is not what is enforced. -/
theorem C8_cex_rush_accepts_nonzero_header_id :
    cexMsgC8.object_id ≠ 0 ∧
    quicrq_receive_object_header_msg cexUniC8 cexMsgC8 ≠ .error () := by decide

/-- C9 counterexample: two notify_ready streams on the same connection both
subscribe to the prefix [1]; notifying url [1,2] enqueues the NOTIFY only
on the first stream and leaves the second untouched, because the stream
walk breaks at the first match — contradicting the claim that every
matching stream gets a NOTIFY. -/
theorem C9_cex_second_matching_stream_skipped :
    quicrq_notify_url_to_all [[nsvOne, nsvOne]] [1, 2] =
      [[{ nsvOne with pending_notify := [[1, 2]] }, nsvOne]] ∧
    [1, 2].take nsvOne.subscribePfx.length = nsvOne.subscribePfx ∧
    nsvOne.pending_notify = [] := by decide

/-- C2 (corrected): the spec's tree-above-horizon invariant holds only once
the horizon has left its uninitialized all-ones sentinel (the code's very
first ack_init already violates the unconditional form, see the
counterexample).  In the amended form it is preserved by every engine
operation — ack_init, handle_ack, repeat and handle_lost — under the
boundedness and non-overlap side conditions of ackOpSidecond, together
with overall well-formedness of the state. -/
theorem C2_tree_at_or_above_initialized_horizon {qmax pmax : Nat}
    {hdrLen : DgHeader → Nat} {cfg : QrConfig} {mid : Nat}
    (hH : ∀ hh, hdrLen hh < qmax) (hqp : qmax ≤ pmax)
    (hq61 : qmax < 2 ^ 61) {s : AckState} (hwf : ackWf s)
    (hinv : ackHorizonInv s) (op : AckOp) (hside : ackOpSidecond s op)
    {s' : AckState}
    (h : applyAckOp qmax pmax hdrLen cfg mid s op = .ok s') :
    ackWf s' ∧
    (horizonKey s' ≠ (U64MAX, U64MAX, U64MAX) →
      ∀ rr ∈ s'.tree, keyLexLe (horizonKey s') (recKey rr)) := by
  cases op with
  | opInit g o off flags nbopg len qd objlen now =>
    obtain ⟨h1, h2, h3, h4, h5, h6⟩ := hside
    have hp : ackWf (quicrq_datagram_ack_init cfg s g o off flags nbopg len
        qd objlen now).2 ∧
        ackHorizonInv (quicrq_datagram_ack_init cfg s g o off flags nbopg
          len qd objlen now).2 :=
      ack_init_preserves hwf hinv h1 h2 h3 h4 h5 h6
    simp only [applyAckOp] at h
    obtain rfl := Except.ok.inj h
    exact ⟨hp.1, hp.2⟩
  | opAck g o off len =>
    simp only [applyAckOp] at h
    have hp := handle_ack_preserves hwf hinv h
    exact ⟨hp.1, hp.2⟩
  | opRepeat g o off data pe now =>
    obtain ⟨hsm, ⟨r, hfind, hlen⟩, habove, hhz⟩ := hside
    obtain ⟨out, s2, hrun, -, -, -, -, hwfp⟩ :=
      repeatGoMain hH hqp hq61 (data.length + 1) s g o off data []
        (by omega) hsm ⟨r, hfind, rfl, rfl, rfl, rfl, rfl, rfl, hlen⟩
        habove hhz
    obtain ⟨hwf2, hinv2⟩ := hwfp hwf hinv
    simp only [applyAckOp, quicrq_datagram_handle_repeat] at h
    rw [hrun] at h
    simp only [Except.map] at h
    obtain rfl := Except.ok.inj h
    exact ⟨hwf2, hinv2⟩
  | opLost g o off sent_time data now =>
    obtain ⟨hsm, hlenOf, habove, hhz⟩ := hside
    simp only [applyAckOp, quicrq_datagram_handle_lost] at h
    cases hfind : treeFind s.tree g o off with
    | none =>
      rw [hfind] at h
      simp only [Except.map] at h
      obtain rfl := Except.ok.inj h
      exact ⟨hwf, hinv⟩
    | some r =>
      rw [hfind] at h
      dsimp only at h
      by_cases hack : r.is_acked = true
      · rw [if_pos hack] at h
        simp only [Except.map] at h
        obtain rfl := Except.ok.inj h
        exact ⟨hwf, hinv⟩
      · rw [if_neg hack] at h
        by_cases hguard : r.is_extra_queued = false ∨
            r.last_sent_time ≤ u64add sent_time 1000
        · rw [if_pos hguard] at h
          have hfind2 : treeFind ({ updateRec s g o off (fun x =>
                { x with nack_received := true }) with
              nb_fragment_lost := (updateRec s g o off (fun x =>
                { x with nack_received := true })).nb_fragment_lost + 1 } : AckState).tree g o off =
              some { r with nack_received := true } := lost_mark_find hfind
          have habove2 : ∀ x ∈ ({ updateRec s g o off (fun x =>
                { x with nack_received := true }) with
              nb_fragment_lost := (updateRec s g o off (fun x =>
                { x with nack_received := true })).nb_fragment_lost + 1 } : AckState).tree,
              x.group_id = g → x.object_id = o → x.object_offset ≤ off := by
            intro x hx e1 e2
            obtain ⟨y, hy, hk⟩ := treeUpdate_mem_key (fun x =>
              { x with nack_received := true }) (fun z => rfl) hx
            have k1 : x.group_id = y.group_id := congrArg (fun p => p.1) hk
            have k2 : x.object_id = y.object_id :=
              congrArg (fun p => p.2.1) hk
            have k3 : x.object_offset = y.object_offset :=
              congrArg (fun p => p.2.2) hk
            rw [k3]
            exact habove y hy (by rw [← k1, e1]) (by rw [← k2, e2])
          have hhz2 : ∀ d, d ≤ data.length →
              ¬ quicrq_datagram_check_horizon ({ updateRec s g o off (fun x =>
                { x with nack_received := true }) with
              nb_fragment_lost := (updateRec s g o off (fun x =>
                { x with nack_received := true })).nb_fragment_lost + 1 } : AckState)
                g o (off + d) < 0 :=
            fun d hd2 => hhz d hd2
          have hskel2 : (treeUpdate s.tree g o off (fun x =>
              { x with nack_received := true })).map skel =
              s.tree.map skel :=
            treeUpdate_map_skel (fun x => rfl)
          have hwfi := wf_inv_of_tree_skel hskel2 hwf hinv
          have hwfS : ackWf ({ updateRec s g o off (fun x =>
                { x with nack_received := true }) with
              nb_fragment_lost := (updateRec s g o off (fun x =>
                { x with nack_received := true })).nb_fragment_lost + 1 } : AckState) :=
            ackWf_congr rfl rfl rfl rfl hwfi.1
          have hinvS : ackHorizonInv ({ updateRec s g o off (fun x =>
                { x with nack_received := true }) with
              nb_fragment_lost := (updateRec s g o off (fun x =>
                { x with nack_received := true })).nb_fragment_lost + 1 } : AckState) :=
            ackHorizonInv_congr rfl rfl rfl rfl hwfi.2
          obtain ⟨out, s2, hrun, -, -, -, -, hwfp⟩ :=
            repeatGoMain hH hqp hq61 (data.length + 1)
              ({ updateRec s g o off (fun x =>
                { x with nack_received := true }) with
              nb_fragment_lost := (updateRec s g o off (fun x =>
                { x with nack_received := true })).nb_fragment_lost + 1 } : AckState) g o off data []
              (by omega) hsm
              ⟨{ r with nack_received := true }, hfind2, rfl, rfl, rfl,
                rfl, rfl, rfl, hlenOf r hfind⟩
              habove2 hhz2
          obtain ⟨hwf2, hinv2⟩ := hwfp hwfS hinvS
          simp only [quicrq_datagram_handle_repeat] at h
          rw [hrun] at h
          simp only [Except.map] at h
          obtain rfl := Except.ok.inj h
          exact ⟨hwf2, hinv2⟩
        · rw [if_neg hguard] at h
          simp only [Except.map] at h
          obtain rfl := Except.ok.inj h
          exact ⟨hwf, hinv⟩

theorem C2_tree_at_or_above_initialized_horizon_witness :
    ackWf stateAfterFirstInit ∧
    (horizonKey stateAfterFirstInit ≠ (U64MAX, U64MAX, U64MAX) →
      ∀ rr ∈ stateAfterFirstInit.tree,
        keyLexLe (horizonKey stateAfterFirstInit) (recKey rr)) :=
  @C2_tree_at_or_above_initialized_horizon 30 1000 (fun _ => 10) cfgOff 4
    (fun _ => (by decide : (10 : Nat) < 30)) (by decide) (by decide)
    quicrq_datagram_ack_ctx_init (by decide) (by decide)
    (.opInit 0 0 0 0 0 10 0 100 1000)
    ⟨by decide, by decide, by decide, by decide, by decide, by decide⟩
    stateAfterFirstInit (by decide)

/-- C3 (corrected): ack_init classifies its input by the code's signed
wrap-around horizon comparison (not the spec's lexicographic order, see the
counterexample): below the horizon in that comparison nothing is inserted
and a horizon event is counted (BelowHorizon); an existing key reports
Duplicate and leaves the state unchanged; otherwise a record carrying the
given fields is inserted (Created) and, exactly when
extra_repeat_after_received_delayed is enabled, extra_repeat_delay is
positive and queue_delay > 20, the new record is queued for an extra
repeat at now + extra_repeat_delay. -/
theorem C3_ack_init_classified_by_wrap_comparison (cfg : QrConfig)
    (s : AckState) (g o off flags nbopg len qd objlen now : Nat) :
    (quicrq_datagram_check_horizon s g o off < 0 →
      (quicrq_datagram_ack_init cfg s g o off flags nbopg len qd objlen
          now).1 = .BelowHorizon ∧
      (quicrq_datagram_ack_init cfg s g o off flags nbopg len qd objlen
        now).2.tree = s.tree ∧
      (quicrq_datagram_ack_init cfg s g o off flags nbopg len qd objlen
        now).2.nb_horizon_events = s.nb_horizon_events + 1) ∧
    (¬ quicrq_datagram_check_horizon s g o off < 0 →
      treeFind s.tree g o off ≠ none →
      (quicrq_datagram_ack_init cfg s g o off flags nbopg len qd objlen
          now).1 = .Duplicate ∧
      (quicrq_datagram_ack_init cfg s g o off flags nbopg len qd objlen
        now).2 = s) ∧
    (¬ quicrq_datagram_check_horizon s g o off < 0 →
      treeFind s.tree g o off = none →
      (quicrq_datagram_ack_init cfg s g o off flags nbopg len qd objlen
          now).1 = .Created ∧
      (∃ rq, treeFind (quicrq_datagram_ack_init cfg s g o off flags nbopg
          len qd objlen now).2.tree g o off = some rq ∧
        rq.length = len ∧ rq.flags = flags ∧ rq.object_length = objlen ∧
        rq.queue_delay = qd ∧ rq.start_time = now ∧
        ((cfg.extra_repeat_after_received_delayed = true ∧
            0 < cfg.extra_repeat_delay ∧ 20 < qd) →
          rq.is_extra_queued = true ∧
          rq.extra_repeat_time = u64add now cfg.extra_repeat_delay)) ∧
      ((cfg.extra_repeat_after_received_delayed = true ∧
          0 < cfg.extra_repeat_delay ∧ 20 < qd) →
        (quicrq_datagram_ack_init cfg s g o off flags nbopg len qd objlen
          now).2.extra_queue = s.extra_queue ++ [(g, o, off)]) ∧
      (¬ (cfg.extra_repeat_after_received_delayed = true ∧
          0 < cfg.extra_repeat_delay ∧ 20 < qd) →
        (quicrq_datagram_ack_init cfg s g o off flags nbopg len qd objlen
          now).2.extra_queue = s.extra_queue)) := by
  unfold quicrq_datagram_ack_init
  by_cases hchk : quicrq_datagram_check_horizon s g o off < 0
  · rw [if_pos hchk]
    exact ⟨fun _ => ⟨rfl, rfl, rfl⟩, fun hn _ => absurd hchk hn,
      fun hn _ => absurd hchk hn⟩
  · rw [if_neg hchk]
    cases hfind : treeFind s.tree g o off with
    | some rdup =>
      dsimp only
      exact ⟨fun hc => absurd hc hchk, fun _ _ => ⟨rfl, rfl⟩,
        fun _ hc => Option.noConfusion hc⟩
    | none =>
      dsimp only
      refine ⟨fun hc => absurd hc hchk, fun _ hc => absurd rfl hc,
        fun _ _ => ?_⟩
      have hIns : treeFind ({ s with tree := (treeInsert s.tree
          (newAckRecord g o off flags nbopg len qd objlen now)) } :
          AckState).tree g o off =
          some (newAckRecord g o off flags nbopg len qd objlen now) :=
        treeFind_insert_self hfind
      by_cases hx : cfg.extra_repeat_after_received_delayed = true ∧
          0 < cfg.extra_repeat_delay ∧ 20 < qd
      · rw [if_pos hx]
        have hEq : quicrq_datagram_ack_extra_queue
            { s with tree := (treeInsert s.tree (newAckRecord g o off flags
              nbopg len qd objlen now)) } g o off
            (u64add now cfg.extra_repeat_delay) =
            { s with
              tree := (treeUpdate (treeInsert s.tree (newAckRecord g o off
                flags nbopg len qd objlen now)) g o off (fun x =>
                  { x with is_extra_queued := true, has_extra_data := true
                           extra_repeat_time :=
                             u64add now cfg.extra_repeat_delay }))
              extra_queue := (s.extra_queue ++ [(g, o, off)])
              nb_extra_sent := (s.nb_extra_sent + 1) } := by
          unfold quicrq_datagram_ack_extra_queue
          rw [hIns]
          dsimp only
          rw [if_neg (show ¬ (newAckRecord g o off flags nbopg len qd
              objlen now).is_extra_queued = true from Bool.false_ne_true)]
        rw [hEq]
        refine ⟨rfl, ⟨{ newAckRecord g o off flags nbopg len qd objlen now
            with is_extra_queued := true, has_extra_data := true
                 extra_repeat_time := u64add now cfg.extra_repeat_delay },
          ?_, rfl, rfl, rfl, rfl, rfl,
          fun _ => ⟨rfl, rfl⟩⟩, fun _ => rfl, fun hc => absurd hx hc⟩
        show treeFind (treeUpdate (treeInsert s.tree (newAckRecord g o off
          flags nbopg len qd objlen now)) g o off (fun x =>
            { x with is_extra_queued := true, has_extra_data := true
                     extra_repeat_time :=
                       u64add now cfg.extra_repeat_delay })) g o off = _
        rw [@treeFind_update_self (treeInsert s.tree (newAckRecord g o off
          flags nbopg len qd objlen now)) g o off (fun x =>
            { x with is_extra_queued := true, has_extra_data := true
                     extra_repeat_time :=
                       u64add now cfg.extra_repeat_delay }) (fun x => rfl)]
        rw [show treeFind (treeInsert s.tree (newAckRecord g o off flags
          nbopg len qd objlen now)) g o off = some (newAckRecord g o off
          flags nbopg len qd objlen now) from hIns]
        rfl
      · rw [if_neg hx]
        exact ⟨rfl, ⟨_, hIns, rfl, rfl, rfl, rfl, rfl,
          fun hc => absurd hc hx⟩, fun hc => absurd hc hx, fun _ => rfl⟩

theorem C3_ack_init_classified_witness :
    quicrq_datagram_check_horizon quicrq_datagram_ack_ctx_init 0 0 0 < 0 →
      (quicrq_datagram_ack_init cfgOff quicrq_datagram_ack_ctx_init
          0 0 0 0 0 10 0 100 1000).1 = .BelowHorizon ∧
      (quicrq_datagram_ack_init cfgOff quicrq_datagram_ack_ctx_init
        0 0 0 0 0 10 0 100 1000).2.tree = quicrq_datagram_ack_ctx_init.tree ∧
      (quicrq_datagram_ack_init cfgOff quicrq_datagram_ack_ctx_init
        0 0 0 0 0 10 0 100 1000).2.nb_horizon_events =
        quicrq_datagram_ack_ctx_init.nb_horizon_events + 1 :=
  (C3_ack_init_classified_by_wrap_comparison cfgOff
    quicrq_datagram_ack_ctx_init 0 0 0 0 0 10 0 100 1000).1

/-- C4 (corrected): handle_lost acts only when the record exists, is not
acked, AND passes the freshness guard — no extra repeat queued, or last
sent no later than sent_time + 1000 (the counterexample shows a live
unacked record whose NACK is silently ignored).  Under the guard, with the
record carrying the NACKed payload, the NACK marks nack_received on the
record, queues at least one retransmission datagram whose payloads
reassemble the full payload, and, when extra_repeat_on_nack is configured
with a positive extra_repeat_delay, also queues the record for an extra
repeat. -/
theorem C4_handle_lost_marks_and_requeues {qmax pmax : Nat}
    {hdrLen : DgHeader → Nat} {cfg : QrConfig} {mid : Nat}
    {s : AckState} {g o off sent_time : Nat} {data : List Nat} {now : Nat}
    {r : DgAckRecord}
    (hH : ∀ hh, hdrLen hh < qmax) (hqp : qmax ≤ pmax)
    (hq61 : qmax < 2 ^ 61)
    (hsm : off + data.length < 2 ^ 61)
    (hfind : treeFind s.tree g o off = some r)
    (hlen : r.length = data.length)
    (hdata : data ≠ [])
    (hack : r.is_acked = false)
    (hguard : r.is_extra_queued = false ∨
      r.last_sent_time ≤ u64add sent_time 1000)
    (habove : ∀ x ∈ s.tree, x.group_id = g → x.object_id = o →
      x.object_offset ≤ off)
    (hhz : ∀ d, d ≤ data.length →
      ¬ quicrq_datagram_check_horizon s g o (off + d) < 0) :
    ∃ out s', quicrq_datagram_handle_lost qmax pmax hdrLen cfg mid s g o
        off sent_time data now = .ok (out, s') ∧
      out ≠ [] ∧
      (out.map QueuedDatagram.payload).flatten = data ∧
      (∃ rq, treeFind s'.tree g o off = some rq ∧
        rq.nack_received = true ∧
        ((cfg.extra_repeat_on_nack = true ∧ 0 < cfg.extra_repeat_delay) →
          rq.is_extra_queued = true)) := by
  have hfind2 : treeFind ({ updateRec s g o off (fun x =>
      { x with nack_received := true }) with
        nb_fragment_lost := (updateRec s g o off (fun x =>
          { x with nack_received := true })).nb_fragment_lost + 1 } :
      AckState).tree g o off =
      some { r with nack_received := true } := lost_mark_find hfind
  have habove2 : ∀ x ∈ ({ updateRec s g o off (fun x =>
      { x with nack_received := true }) with
        nb_fragment_lost := (updateRec s g o off (fun x =>
          { x with nack_received := true })).nb_fragment_lost + 1 } :
      AckState).tree,
      x.group_id = g → x.object_id = o → x.object_offset ≤ off := by
    intro x hx e1 e2
    obtain ⟨y, hy, hk⟩ := treeUpdate_mem_key (fun x =>
      { x with nack_received := true }) (fun z => rfl) hx
    have k1 : x.group_id = y.group_id := congrArg (fun p => p.1) hk
    have k2 : x.object_id = y.object_id := congrArg (fun p => p.2.1) hk
    have k3 : x.object_offset = y.object_offset :=
      congrArg (fun p => p.2.2) hk
    rw [k3]
    exact habove y hy (by rw [← k1, e1]) (by rw [← k2, e2])
  have hhz2 : ∀ d, d ≤ data.length →
      ¬ quicrq_datagram_check_horizon ({ updateRec s g o off (fun x =>
        { x with nack_received := true }) with
          nb_fragment_lost := (updateRec s g o off (fun x =>
            { x with nack_received := true })).nb_fragment_lost + 1 } :
        AckState) g o (off + d) < 0 :=
    fun d hd2 => hhz d hd2
  obtain ⟨out, s', hrun, hjoin, hchain, -, hrecs, -⟩ :=
    repeatGoMain hH hqp hq61 (data.length + 1)
      ({ updateRec s g o off (fun x =>
        { x with nack_received := true }) with
          nb_fragment_lost := (updateRec s g o off (fun x =>
            { x with nack_received := true })).nb_fragment_lost + 1 } :
        AckState) g o off data []
      (by omega) hsm
      ⟨{ r with nack_received := true }, hfind2, rfl, rfl, rfl, rfl, rfl,
        rfl, hlen⟩
      habove2 hhz2
  refine ⟨out, s', ?_, ?_, hjoin, ?_⟩
  · unfold quicrq_datagram_handle_lost
    rw [hfind]
    dsimp only
    rw [if_neg (show ¬ r.is_acked = true by rw [hack]; exact
      Bool.false_ne_true), if_pos hguard]
    unfold quicrq_datagram_handle_repeat
    exact hrun
  · intro hc
    rw [hc] at hjoin
    simp only [List.map_nil, List.flatten_nil] at hjoin
    exact hdata hjoin.symm
  · cases hout : out with
    | nil =>
      exfalso
      rw [hout] at hjoin
      simp only [List.map_nil, List.flatten_nil] at hjoin
      exact hdata hjoin.symm
    | cons q0 rest =>
      rw [hout] at hchain
      obtain ⟨hq0off, -⟩ := hchain
      obtain ⟨rq, hfindq, -, -, -, hnaq, hexq⟩ :=
        hrecs q0 (by rw [hout]; exact List.mem_cons_self q0 rest)
      rw [hq0off] at hfindq
      exact ⟨rq, hfindq, hnaq, hexq⟩

theorem C4_handle_lost_witness :
    ∃ out s', quicrq_datagram_handle_lost 30 1000 (fun _ => 10) cfgOff 4
        { quicrq_datagram_ack_ctx_init with
            tree := [mkRec 1 2 3 10 20 0 false] } 1 2 3 1000
        (List.range 10) 7000 = .ok (out, s') ∧
      out ≠ [] ∧
      (out.map QueuedDatagram.payload).flatten = List.range 10 ∧
      (∃ rq, treeFind s'.tree 1 2 3 = some rq ∧
        rq.nack_received = true ∧
        ((cfgOff.extra_repeat_on_nack = true ∧
            0 < cfgOff.extra_repeat_delay) →
          rq.is_extra_queued = true)) :=
  @C4_handle_lost_marks_and_requeues 30 1000 (fun _ => 10) cfgOff 4
    { quicrq_datagram_ack_ctx_init with
        tree := [mkRec 1 2 3 10 20 0 false] } 1 2 3 1000
    (List.range 10) 7000 (mkRec 1 2 3 10 20 0 false)
    (fun _ => (by decide : (10 : Nat) < 30)) (by decide) (by decide)
    (by decide) (by decide) (by decide) (by decide) (by decide)
    (by decide) (by decide) (by decide)

/-- C5 (confirmed): when a record's datagram does not fit the queueable
size the repeat loop splits it: every queued fragment fits (header plus
payload at most PICOQUIC_DATAGRAM_QUEUE_MAX_LENGTH), carries the record's
identification, the fragment offsets chain from the original offset, the
payloads concatenate back to the original datagram, and every fragment
leaves a tree record of exactly its length inheriting object_length, flags
and nack_received from the original record. -/
theorem C5_repeat_splits_into_reassemblable_fragments {qmax pmax : Nat}
    {hdrLen : DgHeader → Nat} {cfg : QrConfig} {mid : Nat}
    {s : AckState} {g o off : Nat} {data : List Nat} {pe : Bool}
    {now : Nat} {r : DgAckRecord}
    (hH : ∀ hh, hdrLen hh < qmax) (hqp : qmax ≤ pmax)
    (hq61 : qmax < 2 ^ 61) (hsm : off + data.length < 2 ^ 61)
    (hfind : treeFind s.tree g o off = some r)
    (hlen : r.length = data.length)
    (habove : ∀ x ∈ s.tree, x.group_id = g → x.object_id = o →
      x.object_offset ≤ off)
    (hhz : ∀ d, d ≤ data.length →
      ¬ quicrq_datagram_check_horizon s g o (off + d) < 0) :
    ∃ out s', quicrq_datagram_handle_repeat qmax pmax hdrLen cfg mid s g o
        off data pe now = .ok (out, s') ∧
      (out.map QueuedDatagram.payload).flatten = data ∧
      offsetsChained off out ∧
      (∀ q ∈ out, hdrLen q.header + q.payload.length ≤ qmax ∧
        q.header.group_id = g ∧ q.header.object_id = o ∧
        q.header.flags = r.flags ∧
        q.header.object_length = r.object_length) ∧
      (∀ q ∈ out, ∃ rq,
        treeFind s'.tree g o q.header.object_offset = some rq ∧
        rq.length = q.payload.length ∧ rq.flags = r.flags ∧
        rq.object_length = r.object_length ∧
        rq.nack_received = r.nack_received) := by
  obtain ⟨out, s', hrun, hjoin, hchain, hhdrs, hrecs, -⟩ :=
    repeatGoMain hH hqp hq61 (data.length + 1) s g o off data []
      (by omega) hsm ⟨r, hfind, rfl, rfl, rfl, rfl, rfl, rfl, hlen⟩
      habove hhz
  refine ⟨out, s', ?_, hjoin, hchain, ?_, ?_⟩
  · unfold quicrq_datagram_handle_repeat
    exact hrun
  · intro q hq
    obtain ⟨h1, h2, h3, h4, h5, h6, h7, h8⟩ := hhdrs q hq
    exact ⟨h8, h2, h3, h4, h5⟩
  · intro q hq
    obtain ⟨rq, h1, h2, h3, h4, h5, h6⟩ := hrecs q hq
    exact ⟨rq, h1, h2, h3, h4, h5⟩

theorem C5_repeat_splits_witness :
    ∃ out s', quicrq_datagram_handle_repeat 30 1000 (fun _ => 10) cfgOff 4
        { quicrq_datagram_ack_ctx_init with
            tree := [mkRec 2 3 0 50 50 0 false] } 2 3 0
        (List.range 50) false 600 = .ok (out, s') ∧
      (out.map QueuedDatagram.payload).flatten = List.range 50 ∧
      offsetsChained 0 out ∧
      (∀ q ∈ out, (fun _ => 10 : DgHeader → Nat) q.header +
          q.payload.length ≤ 30 ∧
        q.header.group_id = 2 ∧ q.header.object_id = 3 ∧
        q.header.flags = (mkRec 2 3 0 50 50 0 false).flags ∧
        q.header.object_length = (mkRec 2 3 0 50 50 0 false).object_length) ∧
      (∀ q ∈ out, ∃ rq,
        treeFind s'.tree 2 3 q.header.object_offset = some rq ∧
        rq.length = q.payload.length ∧
        rq.flags = (mkRec 2 3 0 50 50 0 false).flags ∧
        rq.object_length = (mkRec 2 3 0 50 50 0 false).object_length ∧
        rq.nack_received = (mkRec 2 3 0 50 50 0 false).nack_received) :=
  @C5_repeat_splits_into_reassemblable_fragments 30 1000 (fun _ => 10)
    cfgOff 4
    { quicrq_datagram_ack_ctx_init with
        tree := [mkRec 2 3 0 50 50 0 false] } 2 3 0
    (List.range 50) false 600 (mkRec 2 3 0 50 50 0 false)
    (fun _ => (by decide : (10 : Nat) < 30)) (by decide) (by decide)
    (by decide) (by decide) (by decide) (by decide) (by decide)

/-- C6 (corrected): every datagram queued by repeat carries queue_delay
equal to the record's stored queue_delay plus a delta that rounds the
elapsed time to the NEAREST millisecond — (now - start_time + 500) / 1000
when now is past the record's start_time, 0 otherwise.  The claim's plain
truncation (now - start_time) / 1000 disagrees whenever the microsecond
remainder is 500 or more (see the counterexample). -/
theorem C6_repeat_delay_rounds_to_nearest_ms {qmax pmax : Nat}
    {hdrLen : DgHeader → Nat} {cfg : QrConfig} {mid : Nat}
    {s : AckState} {g o off : Nat} {data : List Nat} {pe : Bool}
    {now : Nat} {r : DgAckRecord}
    (hH : ∀ hh, hdrLen hh < qmax) (hqp : qmax ≤ pmax)
    (hq61 : qmax < 2 ^ 61) (hsm : off + data.length < 2 ^ 61)
    (hfind : treeFind s.tree g o off = some r)
    (hlen : r.length = data.length)
    (hdata : data ≠ [])
    (habove : ∀ x ∈ s.tree, x.group_id = g → x.object_id = o →
      x.object_offset ≤ off)
    (hhz : ∀ d, d ≤ data.length →
      ¬ quicrq_datagram_check_horizon s g o (off + d) < 0) :
    ∃ out s', quicrq_datagram_handle_repeat qmax pmax hdrLen cfg mid s g o
        off data pe now = .ok (out, s') ∧
      out ≠ [] ∧
      (∀ q ∈ out, q.header.queue_delay =
        u64add r.queue_delay
          (if r.start_time < now then
            (u64add (now - r.start_time) 500) / 1000
          else 0)) := by
  obtain ⟨out, s', hrun, hjoin, -, hhdrs, -, -⟩ :=
    repeatGoMain hH hqp hq61 (data.length + 1) s g o off data []
      (by omega) hsm ⟨r, hfind, rfl, rfl, rfl, rfl, rfl, rfl, hlen⟩
      habove hhz
  refine ⟨out, s', ?_, ?_, ?_⟩
  · unfold quicrq_datagram_handle_repeat
    exact hrun
  · intro hc
    rw [hc] at hjoin
    simp only [List.map_nil, List.flatten_nil] at hjoin
    exact hdata hjoin.symm
  · intro q hq
    have h7 := (hhdrs q hq).2.2.2.2.2.2.1
    rw [h7]
    rfl

theorem C6_repeat_delay_witness :
    ∃ out s', quicrq_datagram_handle_repeat 30 1000 (fun _ => 10) cfgOff 4
        cexStateC6 2 3 0 (List.range 10) false 600 = .ok (out, s') ∧
      out ≠ [] ∧
      (∀ q ∈ out, q.header.queue_delay =
        u64add cexRecC6.queue_delay
          (if cexRecC6.start_time < 600 then
            (u64add (600 - cexRecC6.start_time) 500) / 1000
          else 0)) :=
  @C6_repeat_delay_rounds_to_nearest_ms 30 1000 (fun _ => 10) cfgOff 4
    cexStateC6 2 3 0 (List.range 10) false 600 cexRecC6
    (fun _ => (by decide : (10 : Nat) < 30)) (by decide) (by decide)
    (by decide) (by decide) (by decide) (by decide) (by decide) (by decide)

/-- C7 (confirmed): for a sender stream in send state ready, the next thing
sent is chosen by first match in this order — an unsent nonzero start
point, an unsent nonzero final point, an unsent cache policy of a
real-time cache, single-stream transport with ready fragment data — and
when none matches the stream is marked inactive. -/
theorem C7_sender_ready_priority (s : StreamSendView) (fr : Bool)
    (hready : s.send_state = .sending_ready)
    (hsender : s.is_sender = true) :
    (quicrq_prepare_to_send_ready_step s fr =
        (.queuedStartPoint, .sending_start_point) ↔
      (0 < s.start_group_id ∨ 0 < s.start_object_id) ∧
        s.is_start_object_id_sent = false) ∧
    (quicrq_prepare_to_send_ready_step s fr =
        (.queuedFinDatagram, .sending_final_point) ↔
      ¬ ((0 < s.start_group_id ∨ 0 < s.start_object_id) ∧
          s.is_start_object_id_sent = false) ∧
        ((0 < s.final_group_id ∨ 0 < s.final_object_id) ∧
          s.is_final_object_id_sent = false)) ∧
    (quicrq_prepare_to_send_ready_step s fr =
        (.queuedCachePolicy, .sending_cache_policy) ↔
      ¬ ((0 < s.start_group_id ∨ 0 < s.start_object_id) ∧
          s.is_start_object_id_sent = false) ∧
        ¬ ((0 < s.final_group_id ∨ 0 < s.final_object_id) ∧
          s.is_final_object_id_sent = false) ∧
        (s.is_cache_real_time = true ∧ s.is_cache_policy_sent = false)) ∧
    (quicrq_prepare_to_send_ready_step s fr =
        (.enterSingleStream, .sending_single_stream) ↔
      ¬ ((0 < s.start_group_id ∨ 0 < s.start_object_id) ∧
          s.is_start_object_id_sent = false) ∧
        ¬ ((0 < s.final_group_id ∨ 0 < s.final_object_id) ∧
          s.is_final_object_id_sent = false) ∧
        ¬ (s.is_cache_real_time = true ∧ s.is_cache_policy_sent = false) ∧
        (s.transport_mode = .single_stream ∧ fr = true)) ∧
    (quicrq_prepare_to_send_ready_step s fr =
        (.markedInactive, .sending_ready) ↔
      ¬ ((0 < s.start_group_id ∨ 0 < s.start_object_id) ∧
          s.is_start_object_id_sent = false) ∧
        ¬ ((0 < s.final_group_id ∨ 0 < s.final_object_id) ∧
          s.is_final_object_id_sent = false) ∧
        ¬ (s.is_cache_real_time = true ∧ s.is_cache_policy_sent = false) ∧
        ¬ (s.transport_mode = .single_stream ∧ fr = true)) := by
  unfold quicrq_prepare_to_send_ready_step
  rw [if_pos hready, if_pos hsender]
  by_cases c1 : (0 < s.start_group_id ∨ 0 < s.start_object_id) ∧
      s.is_start_object_id_sent = false
  · rw [if_pos c1]
    exact ⟨by simp [c1], by simp [c1], by simp [c1], by simp [c1],
      by simp [c1]⟩
  · rw [if_neg c1]
    by_cases c2 : (0 < s.final_group_id ∨ 0 < s.final_object_id) ∧
        s.is_final_object_id_sent = false
    · rw [if_pos c2]
      exact ⟨by simp [c1, c2], by simp [c1, c2], by simp [c1, c2],
        by simp [c1, c2], by simp [c1, c2]⟩
    · rw [if_neg c2]
      by_cases c3 : s.is_cache_real_time = true ∧
          s.is_cache_policy_sent = false
      · rw [if_pos c3]
        exact ⟨by simp [c1, c2, c3], by simp [c1, c2, c3],
          by simp [c1, c2, c3], by simp [c1, c2, c3],
          by simp [c1, c2, c3]⟩
      · rw [if_neg c3]
        by_cases c4 : s.transport_mode = .single_stream ∧ fr = true
        · rw [if_pos c4]
          exact ⟨by simp [c1, c2, c3, c4], by simp [c1, c2, c3, c4],
            by simp [c1, c2, c3, c4], by simp [c1, c2, c3, c4],
            by simp [c1, c2, c3, c4]⟩
        · rw [if_neg c4]
          exact ⟨by simp [c1, c2, c3, c4], by simp [c1, c2, c3, c4],
            by simp [c1, c2, c3, c4], by simp [c1, c2, c3, c4],
            by simp [c1, c2, c3, c4]⟩

theorem C7_sender_ready_priority_witness :
    (quicrq_prepare_to_send_ready_step
        { is_sender := true, send_state := .sending_ready
          start_group_id := 1, start_object_id := 0
          is_start_object_id_sent := false
          final_group_id := 0, final_object_id := 0
          is_final_object_id_sent := false
          is_cache_real_time := false, is_cache_policy_sent := false
          transport_mode := .datagram } false =
        (.queuedStartPoint, .sending_start_point) ↔
      (0 < (1 : Nat) ∨ 0 < (0 : Nat)) ∧ false = false) :=
  ((C7_sender_ready_priority
    { is_sender := true, send_state := .sending_ready
      start_group_id := 1, start_object_id := 0
      is_start_object_id_sent := false
      final_group_id := 0, final_object_id := 0
      is_final_object_id_sent := false
      is_cache_real_time := false, is_cache_policy_sent := false
      transport_mode := .datagram } false rfl rfl).1)

/-- C8 (corrected): on a receiving warp/rush substream with its control
stream bound, an incoming OBJECT_HEADER is rejected exactly when, in rush
mode, the substream's running object counter is nonzero, or, in warp mode,
the counter differs from the header's object_id.  The rush test is on the
substream's counter, not on the header's object_id as the claim words it
(see the counterexample: a rush substream accepts a first header whose
object_id is 7). -/
theorem C8_object_header_ordering (u : UniRecvView) (m : ObjectHeaderMsg)
    (hstate : u.receive_state = .receive_warp_header ∨
      u.receive_state = .receive_object_header)
    (hctrl : u.has_control_stream = true) :
    (quicrq_receive_object_header_msg u m = .error () ↔
      (u.transport_mode = .rush ∧ u.current_object_id ≠ 0) ∨
      (u.transport_mode = .warp ∧ u.current_object_id ≠ m.object_id)) := by
  unfold quicrq_receive_object_header_msg
  rw [if_neg (show ¬ (u.receive_state ≠ .receive_warp_header ∧
      u.receive_state ≠ .receive_object_header) by
    rcases hstate with h | h
    · exact fun hc => hc.1 h
    · exact fun hc => hc.2 h)]
  rw [if_neg (show ¬ u.has_control_stream = false by
    rw [hctrl]
    exact fun hc => Bool.noConfusion hc)]
  by_cases hrej : (u.transport_mode = .rush ∧ u.current_object_id ≠ 0) ∨
      (u.transport_mode = .warp ∧ u.current_object_id ≠ m.object_id)
  · rw [if_pos hrej]
    simp [hrej]
  · rw [if_neg hrej]
    by_cases hlen : 0 < m.object_length
    · rw [if_pos hlen]
      simp [hrej]
    · rw [if_neg hlen]
      simp [hrej]

theorem C8_object_header_ordering_witness :
    (quicrq_receive_object_header_msg cexUniC8 cexMsgC8 = .error () ↔
      (cexUniC8.transport_mode = .rush ∧ cexUniC8.current_object_id ≠ 0) ∨
      (cexUniC8.transport_mode = .warp ∧
        cexUniC8.current_object_id ≠ cexMsgC8.object_id)) :=
  C8_object_header_ordering cexUniC8 cexMsgC8 (Or.inl rfl) rfl

/-- The subscribe walk of quicrq_process_incoming_subscribe collects the
matching sources, newest first, on top of what was already pending. -/
theorem subscribe_notify_fold (urlPfx : List Nat) :
    ∀ (sources : List (List Nat)) (pend : List (List Nat)),
      sources.foldl (fun st u => (quicrq_notify_url_to_stream st u).2)
        { send_state := .notify_ready, subscribePfx := urlPfx
          pending_notify := pend } =
      { send_state := .notify_ready, subscribePfx := urlPfx
        pending_notify :=
          ((sources.filter (fun u => decide (urlPfx.length ≤ u.length ∧
            u.take urlPfx.length = urlPfx))).reverse ++ pend) } := by
  intro sources
  induction sources with
  | nil =>
    intro pend
    rfl
  | cons u us ih =>
    intro pend
    rw [List.foldl_cons]
    by_cases hm : urlPfx.length ≤ u.length ∧ u.take urlPfx.length = urlPfx
    · have hstep : (quicrq_notify_url_to_stream
          { send_state := .notify_ready, subscribePfx := urlPfx
            pending_notify := pend } u).2 =
          { send_state := .notify_ready, subscribePfx := urlPfx
            pending_notify := (u :: pend) } := by
        unfold quicrq_notify_url_to_stream
        dsimp only
        rw [if_pos hm]
      rw [hstep, List.filter_cons, if_pos (decide_eq_true hm),
        ih (u :: pend), List.reverse_cons, List.append_assoc]
      rfl
    · have hstep : (quicrq_notify_url_to_stream
          { send_state := .notify_ready, subscribePfx := urlPfx
            pending_notify := pend } u).2 =
          { send_state := .notify_ready, subscribePfx := urlPfx
            pending_notify := pend } := by
        unfold quicrq_notify_url_to_stream
        dsimp only
        rw [if_neg hm]
      rw [hstep, List.filter_cons,
        if_neg (fun hc => hm (of_decide_eq_true hc))]
      exact ih pend

/-- C9 (corrected): a NOTIFY for a newly registered url is enqueued on the
FIRST notify_ready stream with a matching prefix of each connection — the
per-connection walk stops at its first match, so a second matching stream
of the same connection gets nothing (see the counterexample).  The
registration-time notification visits every connection this way, and a
freshly subscribed stream collects exactly the registered sources matching
its prefix, one NOTIFY each, newest first. -/
theorem C9_notify_first_match_only :
    (∀ (l1 l2 : List NotifyStreamView) (st : NotifyStreamView)
        (url : List Nat),
      (∀ x ∈ l1, ¬ (x.send_state = .notify_ready ∧ notifyMatches x url)) →
      st.send_state = .notify_ready → notifyMatches st url →
      notifyStreams (l1 ++ st :: l2) url =
        l1 ++ { st with pending_notify := (url :: st.pending_notify) } ::
          l2) ∧
    (∀ (cnxs : List (List NotifyStreamView)) (url : List Nat),
      quicrq_notify_url_to_all cnxs url =
        cnxs.map (fun streams => notifyStreams streams url)) ∧
    (∀ (sources : List (List Nat)) (urlPfx : List Nat),
      (quicrq_process_incoming_subscribe sources urlPfx).pending_notify =
        (sources.filter (fun u => decide (urlPfx.length ≤ u.length ∧
          u.take urlPfx.length = urlPfx))).reverse) := by
  refine ⟨?_, fun cnxs url => rfl, ?_⟩
  · intro l1 l2 st url hl1 hst hm
    induction l1 with
    | nil =>
      rw [List.nil_append, List.nil_append]
      unfold notifyStreams quicrq_notify_url_to_stream
      rw [if_pos hst]
      dsimp only
      rw [if_pos (show st.subscribePfx.length ≤ url.length ∧
        List.take st.subscribePfx.length url = st.subscribePfx from hm)]
      rfl
    | cons x xs ih =>
      have hx := hl1 x (List.mem_cons_self x xs)
      rw [List.cons_append, List.cons_append]
      unfold notifyStreams
      by_cases hxr : x.send_state = .notify_ready
      · rw [if_pos hxr]
        have hxm : ¬ (x.subscribePfx.length ≤ url.length ∧
            List.take x.subscribePfx.length url = x.subscribePfx) :=
          fun h2 => hx ⟨hxr, h2⟩
        unfold quicrq_notify_url_to_stream
        dsimp only
        rw [if_neg hxm]
        dsimp only
        rw [if_neg (Nat.lt_irrefl 0)]
        rw [ih (fun z hz => hl1 z (List.mem_cons_of_mem x hz))]
      · rw [if_neg hxr]
        rw [ih (fun z hz => hl1 z (List.mem_cons_of_mem x hz))]
  · intro sources urlPfx
    unfold quicrq_process_incoming_subscribe
    rw [subscribe_notify_fold urlPfx sources []]
    rw [List.append_nil]

theorem C9_notify_first_match_witness :
    notifyStreams ([] ++ nsvOne :: [nsvOne]) [1, 2] =
      [] ++ { nsvOne with pending_notify := ([1, 2] ::
        nsvOne.pending_notify) } :: [nsvOne] :=
  C9_notify_first_match_only.1 [] [nsvOne] nsvOne [1, 2]
    (fun x hx => absurd hx (List.not_mem_nil x)) rfl (by decide)
